import Mathlib

/-!
kustomize-fzf: manifest parser, selection mapper and output writer

A shallow embedding of `pkg/parser/parser.go` and `pkg/fzf/fzf.go`.

Conventions of the embedding:

* Go strings and byte slices hold UTF-8 text; they are represented by their
  sequence of code points, `Str = List Char`.  Splitting on the newline byte and
  splitting on the newline code point coincide for such text.
* `strings.TrimSpace` removes, on both sides, the code points for which
  `unicode.IsSpace` holds.
* The YAML decoder of `gopkg.in/yaml.v3`, the process environment and the
  external programs are parameters of the functions that use them.
* Loops are recursive functions that carry the loop's variables.
-/

namespace KustomizeFzf

/-- Text: a Go string or byte slice, as its sequence of code points. -/
abbrev Str := List Char

/-! ## Library functions used by the sources -/

/-- Go `unicode.IsSpace`: the Latin-1 spaces and the other code points of the
`White_Space` table. -/
def isSpace (c : Char) : Bool :=
  let n := c.toNat
  (9 ≤ n && n ≤ 13) || n == 0x20 || n == 0x85 || n == 0xA0 || n == 0x1680 ||
    (0x2000 ≤ n && n ≤ 0x200A) || n == 0x2028 || n == 0x2029 || n == 0x202F ||
    n == 0x205F || n == 0x3000

/-- Go `strings.TrimSpace`: all leading and trailing white space removed. -/
def TrimSpace (s : Str) : Str :=
  (s.dropWhile isSpace).rdropWhile isSpace

/-- Go `bytes.TrimRight(b, "\n")`: all trailing newlines removed. -/
def TrimRightNewline (s : Str) : Str :=
  s.rdropWhile (fun c => c == '\n')

/-- Go `strings.Split(s, "\n")` and `bytes.Split(s, []byte("\n"))`, for an arbitrary
one-character separator: the pieces between the separators, always at least one. -/
def Split (sep : Char) : Str → List Str
  | [] => [[]]
  | c :: cs =>
    if c = sep then [] :: Split sep cs
    else
      match Split sep cs with
      | [] => [[c]]
      | l :: ls => (c :: l) :: ls

/-- Go `strings.HasPrefix`. -/
def HasPrefix (s p : Str) : Bool :=
  p.isPrefixOf s

/-- Go `strings.HasSuffix`. -/
def HasSuffix (s p : Str) : Bool :=
  p.isSuffixOf s

/-! ## pkg/parser -/

/-- The parser's `Object`: the four identifying fields and the raw manifest text. -/
structure Object where
  APIVersion : Str
  Kind : Str
  Namespace : Str
  Name : Str
  Raw : Str
  deriving DecidableEq, Repr

/-- The decoder target `k8sMeta`. -/
structure k8sMeta where
  Name : Str
  Namespace : Str
  deriving DecidableEq, Repr

/-- The decoder target `k8sMinimal`. -/
structure k8sMinimal where
  APIVersion : Str
  Kind : Str
  Metadata : k8sMeta
  deriving DecidableEq, Repr

/-- The YAML decoder `yaml.NewDecoder(...).Decode(&m)` with unknown fields allowed:
the decoded record, or `none` when decoding returns an error. -/
abbrev YAMLDecoder := Str → Option k8sMinimal

/-- The two ways `decodeObject` fails. -/
inductive DecodeError where
  | yamlError
  | notK8sStyle
  deriving DecidableEq, Repr

deriving instance DecidableEq for Except

/-- The document separator line `---`. -/
def separator : Str := ['-', '-', '-']

/-- The loop of `splitYAMLDocuments` over the remaining lines, carrying `docs` and
the buffer `current`.  The test `i < len(lines)-1` is `rest ≠ []`. -/
def splitLoop : List Str → List Str → Str → List Str × Str
  | [], docs, current => (docs, current)
  | line :: rest, docs, current =>
    if TrimSpace line = separator then
      if current.length > 0 then
        splitLoop rest (docs ++ [TrimRightNewline current]) []
      else
        splitLoop rest docs current
    else
      let current1 := current ++ line
      let current2 := if rest.length > 0 then current1 ++ ['\n'] else current1
      splitLoop rest docs current2

/-- Source `splitYAMLDocuments`: the documents of a multi-document payload. -/
def splitYAMLDocuments (data : Str) : List Str :=
  let r := splitLoop (Split '\n' data) [] []
  if r.2.length > 0 then r.1 ++ [TrimRightNewline r.2] else r.1

/-- Source `isCommentOnly`: no line has content other than a comment. -/
def isCommentOnly (doc : Str) : Bool :=
  (Split '\n' doc).all (fun l =>
    !(TrimSpace l != [] && !HasPrefix (TrimSpace l) ['#']))

/-- Source `decodeObject`: the object decoded from a document, `Raw` not yet set. -/
def decodeObject (yaml : YAMLDecoder) (data : Str) : Except DecodeError Object :=
  match yaml data with
  | none => .error .yamlError
  | some m =>
    if m.APIVersion = [] ∧ m.Kind = [] then .error .notK8sStyle
    else .ok
      { APIVersion := m.APIVersion
        Kind := m.Kind
        Namespace := m.Metadata.Namespace
        Name := m.Metadata.Name
        Raw := [] }

/-- The loop of `Parse` over the remaining segments, carrying `objects`. -/
def parseLoop (yaml : YAMLDecoder) : List Str → List Object → List Object
  | [], objects => objects
  | seg :: rest, objects =>
    let trimmed := TrimSpace seg
    if trimmed = [] then parseLoop yaml rest objects
    else if isCommentOnly trimmed then parseLoop yaml rest objects
    else
      match decodeObject yaml trimmed with
      | .error _ => parseLoop yaml rest objects
      | .ok obj => parseLoop yaml rest (objects ++ [{ obj with Raw := trimmed ++ ['\n'] }])

/-- Source `Parse`.  The reader is represented by the result of `io.ReadAll`. -/
def Parse {ε : Type} (yaml : YAMLDecoder) (r : Except ε Str) : Except ε (List Object) :=
  match r with
  | .error err => .error err
  | .ok data => .ok (parseLoop yaml (splitYAMLDocuments data) [])

/-! ## pkg/fzf -/

/-- Source constant `kindColorPrefix`: the escape sequence for green. -/
def kindColorPrefix : Str := [Char.ofNat 0x1b, '[', '3', '2', 'm']

/-- Source constant `colorReset`. -/
def colorReset : Str := [Char.ofNat 0x1b, '[', '0', 'm']

/-- Go `%d` for a non-negative integer: its decimal digits. -/
def decimal (n : Nat) : Str :=
  Nat.toDigits 10 n

/-- Source `Options`. -/
structure Options where
  BinaryPath : Str
  Multi : Bool
  DisableYQ : Bool
  DisableAlign : Bool
  ShowAPIVersion : Bool
  ShowNamespace : Bool

/-- How `cmd.Run()` of the chooser ends: with its standard output, with an
`*exec.ExitError` carrying an exit code, or with another error. -/
inductive RunResult where
  | ok (out : Str)
  | exitError (code : Int)
  | otherError
  deriving DecidableEq, Repr

/-- What the package reads from and does to its surroundings: three environment
variables (`kustomize-fzf_FZF_BIN`, `kustomize-fzf_NO_YQ`, `kustomize-fzf_NO_COLOR`),
`exec.LookPath("fzf")`, the memoised `detectYQ()` (empty when `yq` is not found),
`os.MkdirTemp`, `os.WriteFile` on the file of index `i` in a directory, the run of the
chooser (binary, arguments, standard input) and `runYQ` (path, input, colour). -/
structure Env where
  FZF_BIN : Str
  NO_YQ : Str
  NO_COLOR : Str
  lookPathFzf : Option Str
  detectYQ : Str
  mkdirTemp : Option Str
  writeFile : Str → Nat → Str → Bool
  runChooser : Str → List Str → Str → RunResult
  runYQ : Str → Str → Bool → Option Str

/-- The loop of `buildFZFInputLines` from index `i` on, carrying `lines`. -/
def buildLoop (noColor showAPI showNS : Bool) : Nat → List Object → List Str → List Str
  | _, [], lines => lines
  | i, o :: rest, lines =>
    let kindPart0 := if o.Kind = [] then ['-'] else o.Kind
    let kindPart1 :=
      if showAPI = true ∧ o.APIVersion ≠ [] then o.APIVersion ++ ['.'] ++ kindPart0
      else kindPart0
    let kindPart := if ¬ noColor = true then kindColorPrefix ++ kindPart1 ++ colorReset
      else kindPart1
    let namePart0 := if o.Name = [] then ['-'] else o.Name
    let namePart :=
      if showNS = true ∧ o.Namespace ≠ [] then o.Namespace ++ ['.'] ++ namePart0
      else namePart0
    let display := kindPart ++ [' '] ++ namePart
    buildLoop noColor showAPI showNS (i + 1) rest (lines ++ [decimal i ++ ['\t'] ++ display])

/-- Source `buildFZFInputLines`; `noColor` is `kustomize-fzf_NO_COLOR != ""`. -/
def buildFZFInputLines (env : Env) (objs : List Object) (showAPI showNS : Bool) : List Str :=
  buildLoop (env.NO_COLOR != []) showAPI showNS 0 objs []

/-- Source `stringOrDash`. -/
def stringOrDash (s : Str) : Str :=
  if s = [] then ['-'] else s

/-- The scanner's `SkipSpace` of package `fmt` for `Sscanf` (a newline is not a
space there): the input left after the spaces, or `none` on `unexpected newline`.
A carriage return directly before a newline is passed over. -/
def SkipSpace : Str → Option Str
  | [] => some []
  | c :: cs =>
    if c = '\r' ∧ cs.head? = some '\n' then SkipSpace cs
    else if c = '\n' then none
    else if isSpace c then SkipSpace cs
    else some (c :: cs)

/-- The value of a run of decimal digits. -/
def digitsValue (ds : Str) : Nat :=
  ds.foldl (fun acc c => acc * 10 + (c.toNat - '0'.toNat)) 0

/-- Go `strconv.ParseInt(tok, 10, 64)`: an optional sign and then decimal digits
only, at least one, with the value in the range of `int64`. -/
def ParseInt (tok : Str) : Option Int :=
  let neg := tok.head? = some '-'
  let ds := if tok.head? = some '+' ∨ tok.head? = some '-' then tok.tail else tok
  if ds = [] then none
  else if ¬ ds.all Char.isDigit = true then none
  else
    let un := digitsValue ds
    if ¬ neg ∧ un ≥ 2 ^ 63 then none
    else if neg ∧ un > 2 ^ 63 then none
    else some (if neg then - (un : Int) else (un : Int))

/-- Go `fmt.Sscanf(s, "%d", &idx)`: the integer scanned, or `none` when an error is
returned.  Leading spaces are skipped, a sign is accepted, the longest run of decimal
digits after it is, with the sign, the token, and whatever follows the token is left
unread. -/
def Sscanf_d (s : Str) : Option Int :=
  match SkipSpace s with
  | none => none
  | some s1 =>
    if s1 = [] then none
    else
      let sign := if s1.head? = some '+' ∨ s1.head? = some '-' then s1.take 1 else []
      let s2 := if s1.head? = some '+' ∨ s1.head? = some '-' then s1.tail else s1
      let tok := s2.takeWhile Char.isDigit
      if tok = [] then none
      else ParseInt (sign ++ tok)

/-- The loop of `parseSelectionOutput` over the remaining lines, carrying `idxs`. -/
def selectionLoop : List Str → List Int → List Int
  | [], idxs => idxs
  | l :: rest, idxs =>
    if TrimSpace l = [] then selectionLoop rest idxs
    else
      match Split '\t' l with
      | [] => selectionLoop rest idxs
      | field0 :: _ =>
        match Sscanf_d field0 with
        | some idx => selectionLoop rest (idxs ++ [idx])
        | none => selectionLoop rest idxs

/-- Source `parseSelectionOutput`. -/
def parseSelectionOutput (out : Str) : List Int :=
  selectionLoop (Split '\n' (TrimSpace out)) []

/-- The errors `Select` returns, and the run-time panic of an index out of range. -/
inductive SelectError where
  | noObjects
  | fzfNotFound
  | mkdirTemp
  | writeTempFile
  | selectionAborted
  | runError
  | noSelection
  | indexOutOfRange
  deriving DecidableEq, Repr

/-- The loop of `Select` that maps indices back to objects, carrying `chosen`.
Indexing `objs[idx]` outside the slice is the panic `indexOutOfRange`. -/
def chosenLoop (objs : List Object) : List Int → List Object → Except SelectError (List Object)
  | [], chosen => .ok chosen
  | idx :: rest, chosen =>
    if idx < 0 ∨ idx ≥ (objs.length : Int) then chosenLoop objs rest chosen
    else
      match objs[idx.toNat]? with
      | none => .error .indexOutOfRange
      | some o => chosenLoop objs rest (chosen ++ [o])

/-- The loop of `Select` that writes one preview file per object. -/
def writeTempFiles (env : Env) (tmpDir : Str) : Nat → List Object → Bool
  | _, [] => true
  | i, o :: rest =>
    if env.writeFile tmpDir i o.Raw then writeTempFiles env tmpDir (i + 1) rest else false

/-- The preview command `Select` hands to the chooser. -/
def previewCmd (env : Env) (yqAvailable : Bool) (tmpDir : Str) : Str :=
  if yqAvailable then
    let colorFlag := if env.NO_COLOR = [] then "-C ".toList else []
    "yq ".toList ++ colorFlag ++ "\x27.\x27 \x27".toList ++ tmpDir ++
      "\x27/kustomize-fzf-\x7b1\x7d.yaml 2>/dev/null || cat \x27".toList ++ tmpDir ++
      "\x27/kustomize-fzf-\x7b1\x7d.yaml".toList
  else
    "cat \x27".toList ++ tmpDir ++ "\x27/kustomize-fzf-\x7b1\x7d.yaml".toList

/-- Source `Select`. -/
def Select (env : Env) (objs : List Object) (opts : Options) :
    Except SelectError (List Object) :=
  if objs.length = 0 then .error .noObjects
  else
    let fzfBin? : Option Str :=
      if opts.BinaryPath = [] then
        if env.FZF_BIN ≠ [] then some env.FZF_BIN else env.lookPathFzf
      else some opts.BinaryPath
    match fzfBin? with
    | none => .error .fzfNotFound
    | some fzfBin =>
      let yqAvailable : Bool := !opts.DisableYQ && env.NO_YQ == [] && env.detectYQ != []
      match env.mkdirTemp with
      | none => .error .mkdirTemp
      | some tmpDir =>
        if ¬ writeTempFiles env tmpDir 0 objs = true then .error .writeTempFile
        else
          let lines := buildFZFInputLines env objs opts.ShowAPIVersion opts.ShowNamespace
          let cmdArgs : List Str :=
            (if opts.Multi then ["--multi".toList] else []) ++
              ["--ansi".toList, "--delimiter".toList, ['\t'], "--with-nth=2..".toList] ++
              ["--preview".toList, previewCmd env yqAvailable tmpDir,
                "--preview-window".toList, "right:60%:wrap".toList]
          match env.runChooser fzfBin cmdArgs (List.intercalate ['\n'] lines ++ ['\n']) with
          | .exitError code =>
            if code ≠ 0 then .error .selectionAborted else .error .runError
          | .otherError => .error .runError
          | .ok out =>
            let selections := parseSelectionOutput out
            if selections.length = 0 then .error .noSelection
            else chosenLoop objs selections []

/-- A writer: `io.WriteString(w, s)` takes the writer's state to a new state or
fails. -/
abbrev Writer (σ ε : Type) := σ → Str → Except ε σ

/-- The writer that appends to a buffer and never fails. -/
def bufferWriter : Writer Str Empty :=
  fun buf s => .ok (buf ++ s)

/-- The text `WriteSelected` writes for one object: the formatter's output when the
formatter is in use, succeeds and returns something that is not blank (with a newline
appended when it ends without one), and the object's raw text otherwise. -/
def documentContent (env : Env) (o : Object) : Str :=
  let yq := env.detectYQ
  let useColor : Bool := env.NO_COLOR == []
  if yq ≠ [] ∧ env.NO_YQ = [] then
    match env.runYQ yq o.Raw useColor with
    | some formatted =>
      if TrimSpace formatted ≠ [] then
        if ¬ HasSuffix formatted ['\n'] = true then formatted ++ ['\n'] else formatted
      else o.Raw
    | none => o.Raw
  else o.Raw

/-- The loop of `WriteSelected` from index `i` on, carrying the writer's state. -/
def writeLoop {σ ε : Type} (env : Env) (write : Writer σ ε) :
    Nat → List Object → σ → Except ε σ
  | _, [], w => .ok w
  | i, o :: rest, w =>
    let afterSep : Except ε σ := if i > 0 then write w "---\n".toList else .ok w
    match afterSep with
    | .error err => .error err
    | .ok w1 =>
      match write w1 (documentContent env o) with
      | .error err => .error err
      | .ok w2 => writeLoop env write (i + 1) rest w2

/-- Source `WriteSelected`. -/
def WriteSelected {σ ε : Type} (env : Env) (write : Writer σ ε) (w : σ)
    (objs : List Object) : Except ε σ :=
  writeLoop env write 0 objs w

/-! ## Definitions used to state the properties -/

/-- What one segment adds to the result of `Parse`'s loop: nothing, or one object. -/
def segmentObject (yaml : YAMLDecoder) (seg : Str) : Option Object :=
  if TrimSpace seg = [] then none
  else if isCommentOnly (TrimSpace seg) = true then none
  else
    match decodeObject yaml (TrimSpace seg) with
    | .error _ => none
    | .ok obj => some { obj with Raw := TrimSpace seg ++ ['\n'] }

/-- A segment is a candidate when its trimmed text is neither empty nor
comment-only. -/
def isCandidate (seg : Str) : Bool :=
  TrimSpace seg != [] && !isCommentOnly (TrimSpace seg)

/-- A segment is rejected by the extractor when it fails to decode or decodes with
both `apiVersion` and `kind` empty. -/
def isRejected (yaml : YAMLDecoder) (seg : Str) : Bool :=
  match yaml (TrimSpace seg) with
  | none => true
  | some m => m.APIVersion == [] && m.Kind == []

/-- A blank line: white space only. -/
def isBlankLine (l : Str) : Bool :=
  l.all isSpace

/-- The data model's wording of `raw`: the text with its leading and trailing blank
lines removed and the other lines left as they are. -/
def trimBlankLines (s : Str) : Str :=
  List.intercalate ['\n'] (((Split '\n' s).dropWhile isBlankLine).rdropWhile isBlankLine)

/-- A decoder given by its values on the documents of the examples, where it agrees
with the YAML decoder: `kind: Pod`, a config map with name and namespace, the empty
mapping, which decodes to empty fields, and `kind: [`, which is malformed, as is
here everything else. -/
def sampleYAML : YAMLDecoder := fun s =>
  if s = "kind: Pod".toList then some ⟨[], "Pod".toList, ⟨[], []⟩⟩
  else if s = "apiVersion: v1\nkind: ConfigMap\nmetadata:\n  name: cm1\n  namespace: ns".toList then
    some ⟨"v1".toList, "ConfigMap".toList, ⟨"cm1".toList, "ns".toList⟩⟩
  else if s = "\x7b\x7d".toList then some ⟨[], [], ⟨[], []⟩⟩
  else none

/-- Every line of the text has trimmed content satisfying `Q`. -/
def linesAll (Q : Str → Prop) (s : Str) : Prop :=
  ∀ l ∈ Split '\n' s, Q (TrimSpace l)

/-- No line of the text is a separator line: none has `---` as its trimmed content. -/
def noSeparatorLine (s : Str) : Prop :=
  ∀ l ∈ Split '\n' s, TrimSpace l ≠ separator

instance (s : Str) : Decidable (noSeparatorLine s) :=
  inferInstanceAs (Decidable (∀ l ∈ Split '\n' s, TrimSpace l ≠ separator))

/-- The buffer of the splitter's loop between two lines: empty or ended by a newline,
and without a separator line. -/
def bufferOK (current : Str) : Prop :=
  (current = [] ∨ ∃ c, current = c ++ ['\n']) ∧ noSeparatorLine current

/-- The objects at the selected indices that lie within `objs`, in the order of the
selection. -/
def objectsAt (objs : List Object) (selections : List Int) : List Object :=
  selections.filterMap
    (fun idx => if 0 ≤ idx ∧ idx < (objs.length : Int) then objs[idx.toNat]? else none)

/-- The positions a selection names within a list of `n` objects, in the order of the
selection. -/
def positionsOf (n : Nat) (selections : List Int) : List Nat :=
  selections.filterMap (fun idx => if 0 ≤ idx ∧ idx < (n : Int) then some idx.toNat else none)

/-- Surroundings for the examples: no `yq`, colour disabled, `fzf` found on the path,
temporary files written, and a chooser that returns `out`. -/
def sampleEnv (out : Str) : Env where
  FZF_BIN := []
  NO_YQ := []
  NO_COLOR := ['1']
  lookPathFzf := some "/usr/bin/fzf".toList
  detectYQ := []
  mkdirTemp := some "/tmp/kustomize-fzf-1".toList
  writeFile := fun _ _ _ => true
  runChooser := fun _ _ _ => RunResult.ok out
  runYQ := fun _ _ _ => none

/-- Surroundings for the examples with a formatter: `yq` is found, fails on the
config map of `sampleObjects` and returns the deployment without a final newline. -/
def sampleFormatterEnv : Env where
  FZF_BIN := []
  NO_YQ := []
  NO_COLOR := ['1']
  lookPathFzf := some "/usr/bin/fzf".toList
  detectYQ := "/usr/bin/yq".toList
  mkdirTemp := some "/tmp/kustomize-fzf-1".toList
  writeFile := fun _ _ _ => true
  runChooser := fun _ _ _ => RunResult.otherError
  runYQ := fun _ input _ =>
    if input = "kind: ConfigMap\n".toList then none else some "kind:   Deployment".toList

/-- Surroundings for the examples with colour enabled: `kustomize-fzf_NO_COLOR` is
not set. -/
def sampleColourEnv : Env where
  FZF_BIN := []
  NO_YQ := []
  NO_COLOR := []
  lookPathFzf := some "/usr/bin/fzf".toList
  detectYQ := []
  mkdirTemp := some "/tmp/kustomize-fzf-1".toList
  writeFile := fun _ _ _ => true
  runChooser := fun _ _ _ => RunResult.otherError
  runYQ := fun _ _ _ => none

/-- Options for the examples: multiple selection, nothing else set. -/
def sampleOptions : Options where
  BinaryPath := []
  Multi := true
  DisableYQ := false
  DisableAlign := false
  ShowAPIVersion := false
  ShowNamespace := false

/-- Two objects for the examples. -/
def sampleObjects : List Object :=
  [⟨"v1".toList, "ConfigMap".toList, "ns".toList, "cm1".toList, "kind: ConfigMap\n".toList⟩,
    ⟨"apps/v1".toList, "Deployment".toList, [], "web".toList, "kind: Deployment\n".toList⟩]

/-- The design's `kindLabel`: the kind, or `-` when it is empty, with the API version
and a dot in front when `showAPIVersion` is set and the API version is not empty. -/
def kindLabel (showAPIVersion : Bool) (o : Object) : Str :=
  if showAPIVersion = true ∧ o.APIVersion ≠ [] then
    o.APIVersion ++ ['.'] ++ (if o.Kind = [] then ['-'] else o.Kind)
  else if o.Kind = [] then ['-'] else o.Kind

/-- The design's `nameLabel`: the name, or `-` when it is empty, with the namespace
and a dot in front when `showNamespace` is set and the namespace is not empty. -/
def nameLabel (showNamespace : Bool) (o : Object) : Str :=
  if showNamespace = true ∧ o.Namespace ≠ [] then
    o.Namespace ++ ['.'] ++ (if o.Name = [] then ['-'] else o.Name)
  else if o.Name = [] then ['-'] else o.Name

/-- The design's candidate line of the object at index `i`, with the kind label
between the colour sequences when colour is enabled. -/
def candidateLine (colour showAPIVersion showNamespace : Bool) (i : Nat) (o : Object) : Str :=
  decimal i ++ ['\t'] ++
    (if colour = true then kindColorPrefix ++ kindLabel showAPIVersion o ++ colorReset
      else kindLabel showAPIVersion o) ++
    [' '] ++ nameLabel showNamespace o

/-- None of the four identifying fields of the object holds a newline. -/
def fieldsNewlineFree (o : Object) : Prop :=
  '\n' ∉ o.APIVersion ∧ '\n' ∉ o.Kind ∧ '\n' ∉ o.Namespace ∧ '\n' ∉ o.Name

instance (o : Object) : Decidable (fieldsNewlineFree o) :=
  inferInstanceAs (Decidable
    ('\n' ∉ o.APIVersion ∧ '\n' ∉ o.Kind ∧ '\n' ∉ o.Namespace ∧ '\n' ∉ o.Name))

/-- A decoder given by its value on one document, where it agrees with the YAML
decoder: a pod whose name is a double-quoted scalar with an escaped newline. -/
def multilineYAML : YAMLDecoder := fun s =>
  if s = "kind: Pod\nmetadata:\n  name: \"a\\nb\"".toList then
    some ⟨[], "Pod".toList, ⟨"a\nb".toList, []⟩⟩
  else none

/-- The decimal integer a field begins with: after the leading white space of the
field, an optional sign and then the longest run of decimal digits, which must not be
empty and must give, with the sign, a value in the range of a 64-bit integer.  What
follows the digits is not looked at. -/
def leadingInteger (field : Str) : Option Int :=
  let s := field.dropWhile isSpace
  let body := if s.head? = some '+' ∨ s.head? = some '-' then s.tail else s
  let digits := body.takeWhile Char.isDigit
  if digits = [] then none
  else if s.head? = some '-' then
    if digitsValue digits ≤ 2 ^ 63 then some (- (digitsValue digits : Int)) else none
  else
    if digitsValue digits < 2 ^ 63 then some (digitsValue digits : Int) else none

/-- The index a line of the chooser's output gives: none for a blank line, and
otherwise the decimal integer its first tab-delimited field begins with, if any. -/
def lineIndex (l : Str) : Option Int :=
  if isBlankLine l = true then none
  else
    match Split '\t' l with
    | [] => none
    | field0 :: _ => leadingInteger field0

/-- A line of the chooser's output as the selection protocol writes it: a blank line,
or a decimal index, a tab and a text. -/
inductive ChooserLine where
  | blank (spaces : Str)
  | entry (idx : Nat) (text : Str)

/-- The characters of a line of the chooser's output. -/
def ChooserLine.render : ChooserLine → Str
  | .blank spaces => spaces
  | .entry idx text => decimal idx ++ '\t' :: text

/-- A blank line holds white space only and no newline; the index of an entry is in
the non-negative range of Go's `int` and its text holds no newline. -/
def ChooserLine.wellFormed : ChooserLine → Prop
  | .blank spaces => (∀ c ∈ spaces, isSpace c = true) ∧ '\n' ∉ spaces
  | .entry idx text => idx < 2 ^ 63 ∧ '\n' ∉ text

/-- The index of an entry; a blank line has none. -/
def ChooserLine.index? : ChooserLine → Option Int
  | .blank _ => none
  | .entry idx _ => some (idx : Int)

/-- The output of the chooser for a list of lines: each line followed by a newline. -/
def chooserOutput (lines : List Str) : Str :=
  (lines.map (fun l => l ++ ['\n'])).flatten

instance (l : ChooserLine) : Decidable l.wellFormed :=
  match l with
  | .blank spaces =>
    inferInstanceAs (Decidable ((∀ c ∈ spaces, isSpace c = true) ∧ '\n' ∉ spaces))
  | .entry idx text => inferInstanceAs (Decidable (idx < 2 ^ 63 ∧ '\n' ∉ text))

/-- The line of the chooser's output that stands for position `p` of `objs`: its decimal
index, a tab and what `candidateLine` puts after the tab. -/
def positionLine (colour showAPIVersion showNamespace : Bool) (objs : List Object) (p : Nat) :
    ChooserLine :=
  match objs[p]? with
  | some o =>
    ChooserLine.entry p
      ((if colour = true then kindColorPrefix ++ kindLabel showAPIVersion o ++ colorReset
        else kindLabel showAPIVersion o) ++ [' '] ++ nameLabel showNamespace o)
  | none => ChooserLine.blank []

/-- The lines of an input in groups: a separator line closes the group of the lines
before it and opens the next one.  There is always a last group, the final one, which
no separator line follows. -/
def lineGroups : List Str → List (List Str)
  | [] => [[]]
  | l :: rest =>
    if TrimSpace l = separator then [] :: lineGroups rest
    else
      match lineGroups rest with
      | [] => [[l]]
      | g :: gs => (l :: g) :: gs

/-- The text gathered for a group that a separator line closes: each of its lines
followed by a newline. -/
def closedText (g : List Str) : Str :=
  (g.map (fun l => l ++ ['\n'])).flatten

/-- The text gathered for the final group: its lines joined by newlines. -/
def finalText (g : List Str) : Str :=
  List.intercalate ['\n'] g

/-- The segments of the groups of an input: for each group whose gathered text is not
empty, that text without its trailing newlines. -/
def groupSegments : List (List Str) → List Str
  | [] => []
  | [g] => if finalText g = [] then [] else [TrimRightNewline (finalText g)]
  | g :: g1 :: gs =>
    (if closedText g = [] then [] else [TrimRightNewline (closedText g)])
      ++ groupSegments (g1 :: gs)

/-! ## Facts about the library functions -/

theorem rdropWhile_append_rtakeWhile {α : Type} (p : α → Bool) (l : List α) :
    l.rdropWhile p ++ l.rtakeWhile p = l := by
  unfold List.rdropWhile List.rtakeWhile
  rw [← List.reverse_append, List.takeWhile_append_dropWhile, List.reverse_reverse]

theorem TrimSpace_nil : TrimSpace [] = [] := by
  simp [TrimSpace]

theorem TrimSpace_append_left (pre s : Str) (h : ∀ c ∈ pre, isSpace c = true) :
    TrimSpace (pre ++ s) = TrimSpace s := by
  induction pre with
  | nil => rfl
  | cons c pre ih =>
    have hc : isSpace c = true := h c (List.mem_cons_self _ _)
    have ih1 := ih (fun d hd => h d (List.mem_cons_of_mem _ hd))
    simpa [TrimSpace, hc] using ih1

theorem TrimSpace_concat_space (s : Str) (c : Char) (h : isSpace c = true) :
    TrimSpace (s ++ [c]) = TrimSpace s := by
  unfold TrimSpace
  rw [List.dropWhile_append]
  split
  · rename_i he
    have : s.dropWhile isSpace = [] := by simpa using he
    simp [this, h]
  · rw [List.rdropWhile_concat_pos _ _ _ h]

theorem TrimSpace_append_right (s post : Str) (h : ∀ c ∈ post, isSpace c = true) :
    TrimSpace (s ++ post) = TrimSpace s := by
  induction post using List.reverseRecOn with
  | nil => simp
  | append_singleton post c ih =>
    rw [← List.append_assoc, TrimSpace_concat_space _ _ (h c (by simp))]
    exact ih (fun d hd => h d (by simp [hd]))

theorem TrimSpace_head_not_space (s : Str) (c : Char)
    (h : (TrimSpace s).head? = some c) : isSpace c = false := by
  have hne : TrimSpace s ≠ [] := by
    intro h0
    rw [h0] at h
    simp at h
  have hpre : TrimSpace s <+: s.dropWhile isSpace := List.rdropWhile_prefix _ _
  have hd : s.dropWhile isSpace ≠ [] := by
    intro h0
    rw [h0] at hpre
    exact hne (List.prefix_nil.mp hpre)
  have h1 := List.head_dropWhile_not isSpace s hd
  have h2 := hpre.head hne
  have h3 : (TrimSpace s).head hne = c := by
    have := List.head?_eq_head hne
    rw [h] at this
    exact (Option.some.inj this).symm
  rw [← h3, h2]
  exact h1

theorem TrimSpace_getLast_not_space (s : Str) (c : Char)
    (h : (TrimSpace s).getLast? = some c) : isSpace c = false := by
  have hne : TrimSpace s ≠ [] := by
    intro h0
    rw [h0] at h
    simp at h
  have h1 := List.rdropWhile_last_not isSpace (s.dropWhile isSpace) hne
  have h3 : (TrimSpace s).getLast hne = c := by
    have := List.getLast?_eq_getLast _ hne
    rw [h] at this
    exact (Option.some.inj this).symm
  have h4 : ((s.dropWhile isSpace).rdropWhile isSpace).getLast hne = c := h3
  rw [h4] at h1
  simpa using h1

/-- A text with no white space at either end is left alone by `TrimSpace`. -/
theorem TrimSpace_eq_self (t : Str)
    (hh : ∀ c, t.head? = some c → isSpace c = false)
    (hl : ∀ c, t.getLast? = some c → isSpace c = false) : TrimSpace t = t := by
  unfold TrimSpace
  have h1 : t.dropWhile isSpace = t := by
    cases t with
    | nil => rfl
    | cons c t =>
      have := hh c rfl
      simp [this]
  rw [h1, List.rdropWhile_eq_self_iff]
  intro hne
  have := hl (t.getLast hne) (List.getLast?_eq_getLast _ hne)
  simp [this]

theorem TrimSpace_idem (s : Str) : TrimSpace (TrimSpace s) = TrimSpace s :=
  TrimSpace_eq_self _ (TrimSpace_head_not_space s) (TrimSpace_getLast_not_space s)

/-- The input of `TrimSpace` is its result between two runs of white space. -/
theorem TrimSpace_decomp (s : Str) :
    ∃ pre post : Str, s = pre ++ TrimSpace s ++ post ∧
      (∀ c ∈ pre, isSpace c = true) ∧ (∀ c ∈ post, isSpace c = true) := by
  refine ⟨s.takeWhile isSpace, (s.dropWhile isSpace).rtakeWhile isSpace, ?_, ?_, ?_⟩
  · unfold TrimSpace
    rw [List.append_assoc, rdropWhile_append_rtakeWhile, List.takeWhile_append_dropWhile]
  · intro c hc
    exact List.mem_takeWhile_imp hc
  · intro c hc
    exact List.mem_rtakeWhile_imp hc

theorem TrimSpace_TrimRightNewline (s : Str) :
    TrimSpace (TrimRightNewline s) = TrimSpace s := by
  have h : s = TrimRightNewline s ++ s.rtakeWhile (fun c => c == '\n') := by
    unfold TrimRightNewline
    rw [rdropWhile_append_rtakeWhile]
  conv_rhs => rw [h]
  symm
  apply TrimSpace_append_right
  intro c hc
  have := List.mem_rtakeWhile_imp hc
  have hc2 : c = '\n' := by simpa using this
  rw [hc2]
  decide

/-! ## Facts about `Split` -/

theorem intercalate_cons_eq (sep x : Str) (xs : List Str) :
    List.intercalate sep (x :: xs) = x ++ (xs.map (fun y => sep ++ y)).flatten := by
  induction xs generalizing x with
  | nil => simp [List.intercalate]
  | cons y ys ih =>
    have h := ih y
    simp only [List.intercalate, List.intersperse, List.flatten, List.map_cons] at h ⊢
    rw [h]
    simp

theorem Split_ne_nil (sep : Char) (s : Str) : Split sep s ≠ [] := by
  cases s with
  | nil => simp [Split]
  | cons c cs =>
    unfold Split
    split
    · simp
    · split <;> simp

theorem Split_cons_sep (sep : Char) (s : Str) : Split sep (sep :: s) = [] :: Split sep s := by
  rw [Split]
  simp

theorem Split_cons_ne (sep c : Char) (s l : Str) (ls : List Str) (hc : c ≠ sep)
    (h : Split sep s = l :: ls) : Split sep (c :: s) = (c :: l) :: ls := by
  rw [Split]
  simp [hc, h]

theorem Split_append_sep (sep : Char) (a b : Str) :
    Split sep (a ++ sep :: b) = Split sep a ++ Split sep b := by
  induction a with
  | nil => simp [Split]
  | cons c a ih =>
    by_cases hc : c = sep
    · subst hc
      rw [List.cons_append, Split_cons_sep, Split_cons_sep, ih, List.cons_append]
    · obtain ⟨l, ls, hl⟩ : ∃ l ls, Split sep a = l :: ls := by
        cases h : Split sep a with
        | nil => exact absurd h (Split_ne_nil sep a)
        | cons l ls => exact ⟨l, ls, rfl⟩
      rw [List.cons_append, Split_cons_ne sep c a l ls hc hl,
        Split_cons_ne sep c (a ++ sep :: b) l (ls ++ Split sep b) hc (by rw [ih, hl]; rfl)]
      rfl

theorem Split_concat_sep (sep : Char) (s : Str) : Split sep (s ++ [sep]) = Split sep s ++ [[]] := by
  rw [Split_append_sep]
  rfl

/-- Appending a character other than the separator extends the last piece. -/
theorem Split_concat_ne (sep c : Char) (s : Str) (hc : c ≠ sep) :
    ∃ (init : List Str) (last : Str),
      Split sep s = init ++ [last] ∧ Split sep (s ++ [c]) = init ++ [last ++ [c]] := by
  induction s with
  | nil =>
    refine ⟨[], [], by simp [Split], ?_⟩
    simp [Split, hc]
  | cons a s ih =>
    obtain ⟨init, last, h1, h2⟩ := ih
    by_cases ha : a = sep
    · subst ha
      refine ⟨[] :: init, last, ?_, ?_⟩
      · rw [Split_cons_sep, h1]
        rfl
      · rw [List.cons_append, Split_cons_sep, h2]
        rfl
    · cases init with
      | nil =>
        refine ⟨[], a :: last, ?_, ?_⟩
        · rw [Split_cons_ne sep a s last [] ha (by simpa using h1)]
          rfl
        · rw [List.cons_append, Split_cons_ne sep a (s ++ [c]) (last ++ [c]) [] ha (by simpa using h2)]
          rfl
      | cons i is =>
        refine ⟨(a :: i) :: is, last, ?_, ?_⟩
        · rw [Split_cons_ne sep a s i (is ++ [last]) ha (by simpa using h1)]
          rfl
        · rw [List.cons_append,
            Split_cons_ne sep a (s ++ [c]) i (is ++ [last ++ [c]]) ha (by simpa using h2)]
          rfl

theorem Split_of_not_mem (sep : Char) (s : Str) (h : sep ∉ s) : Split sep s = [s] := by
  induction s with
  | nil => rfl
  | cons c s ih =>
    have hc : c ≠ sep := fun hc => h (by simp [hc])
    have hs : sep ∉ s := fun hs => h (List.mem_cons_of_mem _ hs)
    rw [Split_cons_ne sep c s s [] hc (ih hs)]

theorem not_mem_of_mem_Split (sep : Char) (s l : Str) (h : l ∈ Split sep s) : sep ∉ l := by
  induction s generalizing l with
  | nil =>
    simp [Split] at h
    subst h
    simp
  | cons c s ih =>
    by_cases hc : c = sep
    · subst hc
      rw [Split_cons_sep] at h
      rcases List.mem_cons.mp h with h | h
      · subst h
        simp
      · exact ih l h
    · obtain ⟨l0, ls, hl⟩ : ∃ l ls, Split sep s = l :: ls := by
        cases h : Split sep s with
        | nil => exact absurd h (Split_ne_nil sep s)
        | cons l ls => exact ⟨l, ls, rfl⟩
      rw [Split_cons_ne sep c s l0 ls hc hl] at h
      rcases List.mem_cons.mp h with h | h
      · subst h
        have := ih l0 (by rw [hl]; simp)
        intro hmem
        rcases List.mem_cons.mp hmem with h1 | h1
        · exact hc h1.symm
        · exact this h1
      · exact ih l (by rw [hl]; exact List.mem_cons_of_mem _ h)

/-- Each line followed by a newline, all together: the text followed by a newline. -/
theorem flatten_map_Split (s : Str) :
    ((Split '\n' s).map (fun l => l ++ ['\n'])).flatten = s ++ ['\n'] := by
  induction s with
  | nil => simp [Split]
  | cons c s ih =>
    by_cases hc : c = '\n'
    · subst hc
      rw [Split_cons_sep]
      simp [ih]
    · obtain ⟨l0, ls, hl⟩ : ∃ l ls, Split '\n' s = l :: ls := by
        cases h : Split '\n' s with
        | nil => exact absurd h (Split_ne_nil _ s)
        | cons l ls => exact ⟨l, ls, rfl⟩
      rw [Split_cons_ne _ c s l0 ls hc hl]
      rw [hl] at ih
      simp only [List.map_cons, List.flatten_cons, List.cons_append] at ih ⊢
      rw [ih]

theorem intercalate_Split (s : Str) : List.intercalate ['\n'] (Split '\n' s) = s := by
  induction s with
  | nil => simp [Split, List.intercalate]
  | cons c s ih =>
    obtain ⟨l0, ls, hl⟩ : ∃ l ls, Split '\n' s = l :: ls := by
      cases h : Split '\n' s with
      | nil => exact absurd h (Split_ne_nil _ s)
      | cons l ls => exact ⟨l, ls, rfl⟩
    rw [hl, intercalate_cons_eq] at ih
    by_cases hc : c = '\n'
    · subst hc
      rw [Split_cons_sep, hl, intercalate_cons_eq]
      simp only [List.map_cons, List.flatten_cons, List.nil_append, List.append_assoc]
      rw [ih]
      rfl
    · rw [Split_cons_ne _ c s l0 ls hc hl, intercalate_cons_eq, List.cons_append, ih]

/-! ## Properties of the lines of a text and white space at its ends -/

theorem linesAll_space_cons (Q : Str → Prop) (hQ : Q []) (c : Char) (s : Str)
    (hc : isSpace c = true) : linesAll Q (c :: s) ↔ linesAll Q s := by
  unfold linesAll
  by_cases hn : c = '\n'
  · subst hn
    rw [Split_cons_sep]
    simp [TrimSpace_nil, hQ]
  · obtain ⟨l0, ls, hl⟩ : ∃ l ls, Split '\n' s = l :: ls := by
      cases h : Split '\n' s with
      | nil => exact absurd h (Split_ne_nil _ s)
      | cons l ls => exact ⟨l, ls, rfl⟩
    rw [Split_cons_ne _ c s l0 ls hn hl, hl]
    have ht : TrimSpace (c :: l0) = TrimSpace l0 :=
      TrimSpace_append_left [c] l0 (by simpa using hc)
    simp [ht]

theorem linesAll_concat_space (Q : Str → Prop) (hQ : Q []) (c : Char) (s : Str)
    (hc : isSpace c = true) : linesAll Q (s ++ [c]) ↔ linesAll Q s := by
  unfold linesAll
  by_cases hn : c = '\n'
  · subst hn
    rw [Split_concat_sep]
    constructor
    · intro h l hl
      exact h l (List.mem_append_left _ hl)
    · intro h l hl
      rcases List.mem_append.mp hl with hl | hl
      · exact h l hl
      · rw [List.mem_singleton.mp hl, TrimSpace_nil]
        exact hQ
  · obtain ⟨init, last, h1, h2⟩ := Split_concat_ne '\n' c s hn
    rw [h1, h2]
    have ht := TrimSpace_concat_space last c hc
    constructor
    · intro h l hl
      rcases List.mem_append.mp hl with hl | hl
      · exact h l (List.mem_append_left _ hl)
      · rw [List.mem_singleton.mp hl, ← ht]
        exact h _ (List.mem_append_right _ (List.mem_singleton.mpr rfl))
    · intro h l hl
      rcases List.mem_append.mp hl with hl | hl
      · exact h l (List.mem_append_left _ hl)
      · rw [List.mem_singleton.mp hl, ht]
        exact h _ (List.mem_append_right _ (List.mem_singleton.mpr rfl))

theorem linesAll_append_left (Q : Str → Prop) (hQ : Q []) (pre s : Str)
    (h : ∀ c ∈ pre, isSpace c = true) : linesAll Q (pre ++ s) ↔ linesAll Q s := by
  induction pre with
  | nil => rfl
  | cons c pre ih =>
    rw [List.cons_append, linesAll_space_cons Q hQ c _ (h c (List.mem_cons_self _ _))]
    exact ih (fun d hd => h d (List.mem_cons_of_mem _ hd))

theorem linesAll_append_right (Q : Str → Prop) (hQ : Q []) (s post : Str)
    (h : ∀ c ∈ post, isSpace c = true) : linesAll Q (s ++ post) ↔ linesAll Q s := by
  induction post using List.reverseRecOn with
  | nil => simp
  | append_singleton post c ih =>
    rw [← List.append_assoc, linesAll_concat_space Q hQ c _ (h c (by simp))]
    exact ih (fun d hd => h d (by simp [hd]))

/-- A property of the trimmed lines that holds of the empty line holds of a text
exactly when it holds of the trimmed text. -/
theorem linesAll_TrimSpace (Q : Str → Prop) (hQ : Q []) (s : Str) :
    linesAll Q (TrimSpace s) ↔ linesAll Q s := by
  obtain ⟨pre, post, hdec, hpre, hpost⟩ := TrimSpace_decomp s
  conv_rhs => rw [hdec]
  rw [linesAll_append_right Q hQ _ post hpost, linesAll_append_left Q hQ pre _ hpre]

theorem isCommentOnly_iff (doc : Str) :
    isCommentOnly doc = true ↔ linesAll (fun t => t = [] ∨ HasPrefix t ['#'] = true) doc := by
  unfold isCommentOnly linesAll
  rw [List.all_eq_true]
  constructor
  · intro h l hl
    have := h l hl
    by_cases ht : TrimSpace l = []
    · exact Or.inl ht
    · right
      simpa [ht] using this
  · intro h l hl
    rcases h l hl with ht | ht
    · simp [ht]
    · simp [ht]

theorem noSeparatorLine_TrimSpace (s : Str) :
    noSeparatorLine (TrimSpace s) ↔ noSeparatorLine s :=
  linesAll_TrimSpace (fun t => t ≠ separator) (by decide) s

theorem noSeparatorLine_concat_newline (s : Str) :
    noSeparatorLine (s ++ ['\n']) ↔ noSeparatorLine s :=
  linesAll_concat_space (fun t => t ≠ separator) (by decide) '\n' s (by decide)

theorem noSeparatorLine_TrimRightNewline (s : Str) (h : noSeparatorLine s) :
    noSeparatorLine (TrimRightNewline s) := by
  have hs : s = TrimRightNewline s ++ s.rtakeWhile (fun c => c == '\n') := by
    unfold TrimRightNewline
    rw [rdropWhile_append_rtakeWhile]
  rw [hs] at h
  refine (linesAll_append_right (fun t => t ≠ separator) (by decide) _ _ ?_).mp h
  intro c hc
  have := List.mem_rtakeWhile_imp hc
  have hc2 : c = '\n' := by simpa using this
  rw [hc2]
  decide

/-! ## Facts about the splitter's loop -/

theorem splitLoop_lines_mid (ls rest docs : List Str) (current : Str)
    (hls : ∀ l ∈ ls, TrimSpace l ≠ separator) (hrest : rest ≠ []) :
    splitLoop (ls ++ rest) docs current
      = splitLoop rest docs (current ++ (ls.map (fun l => l ++ ['\n'])).flatten) := by
  induction ls generalizing current with
  | nil => simp
  | cons l ls ih =>
    have hl : TrimSpace l ≠ separator := hls l (List.mem_cons_self _ _)
    have hlen : (ls ++ rest).length > 0 := by
      have : rest.length > 0 := List.length_pos.mpr hrest
      simp only [List.length_append]
      omega
    rw [List.cons_append, splitLoop]
    simp only [hl, if_false, hlen, if_true]
    rw [ih _ (fun l hl => hls l (List.mem_cons_of_mem _ hl))]
    simp

theorem intercalate_cons_cons (sep x y : Str) (ys : List Str) :
    List.intercalate sep (x :: y :: ys) = x ++ sep ++ List.intercalate sep (y :: ys) := by
  rw [intercalate_cons_eq, intercalate_cons_eq]
  simp

theorem splitLoop_lines_end (ls docs : List Str) (current : Str)
    (hls : ∀ l ∈ ls, TrimSpace l ≠ separator) :
    splitLoop ls docs current = (docs, current ++ List.intercalate ['\n'] ls) := by
  induction ls generalizing current with
  | nil => simp [splitLoop, List.intercalate]
  | cons l ls ih =>
    have hl : TrimSpace l ≠ separator := hls l (List.mem_cons_self _ _)
    rw [splitLoop]
    simp only [hl, if_false]
    rw [ih _ (fun l hl => hls l (List.mem_cons_of_mem _ hl))]
    cases ls with
    | nil => simp [List.intercalate]
    | cons l1 ls =>
      rw [intercalate_cons_cons]
      simp

theorem splitLoop_separator (line : Str) (rest docs : List Str) (current : Str)
    (hline : TrimSpace line = separator) (hcur : current ≠ []) :
    splitLoop (line :: rest) docs current
      = splitLoop rest (docs ++ [TrimRightNewline current]) [] := by
  have hlen : current.length > 0 := List.length_pos.mpr hcur
  rw [splitLoop]
  simp only [hline, if_true, hlen]

/-- The text between two documents of a stream: a newline, the separator line and
its newline. -/
theorem Split_document_separator (d rest : Str) :
    Split '\n' (d ++ "\n---\n".toList ++ rest)
      = Split '\n' d ++ separator :: Split '\n' rest := by
  have h1 : d ++ "\n---\n".toList ++ rest = d ++ '\n' :: (separator ++ '\n' :: rest) := by
    simp [separator]
  rw [h1, Split_append_sep, Split_append_sep]
  have h2 : Split '\n' separator = [separator] := by decide
  rw [h2]
  rfl

/-- The splitter's loop on a stream of documents without separator lines, joined by
separator lines: every document but the last is emitted with a newline added and the
trailing newlines removed, and the last one is left in the buffer. -/
theorem splitLoop_stream (init : List Str) (last : Str) (docs : List Str)
    (hinit : ∀ d ∈ init, noSeparatorLine d) (hlast : noSeparatorLine last) :
    splitLoop (Split '\n' (List.intercalate "\n---\n".toList (init ++ [last]))) docs []
      = (docs ++ init.map (fun d => TrimRightNewline (d ++ ['\n'])), last) := by
  induction init generalizing docs with
  | nil =>
    simp only [List.nil_append, List.map_nil, List.append_nil]
    have : List.intercalate "\n---\n".toList [last] = last := by simp [List.intercalate]
    rw [this, splitLoop_lines_end _ _ _ hlast, intercalate_Split]
    rfl
  | cons d init ih =>
    have hd : noSeparatorLine d := hinit d (List.mem_cons_self _ _)
    obtain ⟨y, ys, hy⟩ : ∃ y ys, init ++ [last] = y :: ys := by
      cases h : init ++ [last] with
      | nil => simp at h
      | cons y ys => exact ⟨y, ys, rfl⟩
    rw [List.cons_append, hy, intercalate_cons_cons, ← hy, Split_document_separator,
      splitLoop_lines_mid _ _ _ _ hd (by simp), flatten_map_Split,
      splitLoop_separator _ _ _ _ (by decide) (by simp),
      ih _ (fun d hd => hinit d (List.mem_cons_of_mem _ hd))]
    simp

theorem splitYAMLDocuments_stream (init : List Str) (last : Str)
    (hinit : ∀ d ∈ init, noSeparatorLine d) (hlast : noSeparatorLine last)
    (hne : last ≠ []) :
    splitYAMLDocuments (List.intercalate "\n---\n".toList (init ++ [last]))
      = init.map (fun d => TrimRightNewline (d ++ ['\n'])) ++ [TrimRightNewline last] := by
  unfold splitYAMLDocuments
  rw [splitLoop_stream init last [] hinit hlast]
  have hlen : last.length > 0 := List.length_pos.mpr hne
  simp [hlen]

theorem noSeparatorLine_buffer_append (current line : Str) (hcur : bufferOK current)
    (hline : TrimSpace line ≠ separator) (hnl : '\n' ∉ line) :
    noSeparatorLine (current ++ line) := by
  obtain ⟨hshape, hno⟩ := hcur
  rcases hshape with h | ⟨c, h⟩
  · subst h
    intro l hl
    rw [List.nil_append, Split_of_not_mem _ _ hnl, List.mem_singleton] at hl
    rw [hl]
    exact hline
  · subst h
    have hc : noSeparatorLine c := (noSeparatorLine_concat_newline c).mp hno
    intro l hl
    rw [List.append_assoc, List.singleton_append, Split_append_sep,
      Split_of_not_mem _ _ hnl] at hl
    rcases List.mem_append.mp hl with hl | hl
    · exact hc l hl
    · rw [List.mem_singleton.mp hl]
      exact hline

theorem splitLoop_noSeparatorLine (lines docs : List Str) (current : Str)
    (hlines : ∀ l ∈ lines, '\n' ∉ l) (hcur : bufferOK current)
    (hdocs : ∀ d ∈ docs, noSeparatorLine d) :
    (∀ d ∈ (splitLoop lines docs current).1, noSeparatorLine d)
      ∧ noSeparatorLine (splitLoop lines docs current).2 := by
  induction lines generalizing docs current with
  | nil => exact ⟨hdocs, hcur.2⟩
  | cons line rest ih =>
    have hrest : ∀ l ∈ rest, '\n' ∉ l := fun l hl => hlines l (List.mem_cons_of_mem _ hl)
    have hnl : '\n' ∉ line := hlines line (List.mem_cons_self _ _)
    rw [splitLoop]
    by_cases hline : TrimSpace line = separator
    · simp only [hline, if_true]
      by_cases hlen : current.length > 0
      · simp only [hlen, if_true]
        apply ih _ _ hrest
        · exact ⟨Or.inl rfl, by intro l hl; simp [Split] at hl; subst hl; decide⟩
        · intro d hd
          rcases List.mem_append.mp hd with hd | hd
          · exact hdocs d hd
          · rw [List.mem_singleton.mp hd]
            exact noSeparatorLine_TrimRightNewline _ hcur.2
      · simp only [hlen, if_false]
        exact ih _ _ hrest hcur hdocs
    · simp only [hline, if_false]
      have happ := noSeparatorLine_buffer_append current line hcur hline hnl
      by_cases hlen : rest.length > 0
      · simp only [hlen, if_true]
        apply ih _ _ hrest _ hdocs
        exact ⟨Or.inr ⟨_, rfl⟩, (noSeparatorLine_concat_newline _).mpr happ⟩
      · simp only [hlen, if_false]
        have hnil : rest = [] := by
          cases rest with
          | nil => rfl
          | cons a b => simp at hlen
        subst hnil
        exact ⟨hdocs, happ⟩

/-- No segment of `splitYAMLDocuments` holds a separator line. -/
theorem splitYAMLDocuments_noSeparatorLine (data seg : Str)
    (hseg : seg ∈ splitYAMLDocuments data) : noSeparatorLine seg := by
  have h := splitLoop_noSeparatorLine (Split '\n' data) [] []
    (fun l hl => not_mem_of_mem_Split _ data l hl)
    ⟨Or.inl rfl, by intro l hl; simp [Split] at hl; subst hl; decide⟩
    (by simp)
  unfold splitYAMLDocuments at hseg
  simp only at hseg
  split at hseg
  · rcases List.mem_append.mp hseg with hseg | hseg
    · exact h.1 seg hseg
    · rw [List.mem_singleton.mp hseg]
      exact noSeparatorLine_TrimRightNewline _ h.2
  · exact h.1 seg hseg

/-! ## Facts about the parser's loop -/

theorem parseLoop_eq_filterMap (yaml : YAMLDecoder) (segs : List Str) (objects : List Object) :
    parseLoop yaml segs objects = objects ++ segs.filterMap (segmentObject yaml) := by
  induction segs generalizing objects with
  | nil => simp [parseLoop]
  | cons seg rest ih =>
    by_cases h1 : TrimSpace seg = []
    · have hs : segmentObject yaml seg = none := by simp [segmentObject, h1]
      simp [parseLoop, h1, hs, ih]
    · by_cases h2 : isCommentOnly (TrimSpace seg) = true
      · have hs : segmentObject yaml seg = none := by simp [segmentObject, h1, h2]
        simp [parseLoop, h1, h2, hs, ih]
      · cases h3 : decodeObject yaml (TrimSpace seg) with
        | error e =>
          have hs : segmentObject yaml seg = none := by simp [segmentObject, h1, h2, h3]
          simp [parseLoop, h1, h2, h3, hs, ih]
        | ok obj =>
          have hs : segmentObject yaml seg
              = some { obj with Raw := TrimSpace seg ++ ['\n'] } := by
            simp [segmentObject, h1, h2, h3]
          simp [parseLoop, h1, h2, h3, hs, ih]

theorem parseLoop_singleton (yaml : YAMLDecoder) (seg : Str) :
    parseLoop yaml [seg] [] = (segmentObject yaml seg).toList := by
  rw [parseLoop_eq_filterMap]
  cases h : segmentObject yaml seg <;> simp [h]

theorem parseLoop_append (yaml : YAMLDecoder) (a b : List Str) :
    parseLoop yaml (a ++ b) [] = parseLoop yaml a [] ++ parseLoop yaml b [] := by
  simp [parseLoop_eq_filterMap]

theorem parseLoop_flatMap (yaml : YAMLDecoder) (segs : List Str) :
    parseLoop yaml segs [] = segs.flatMap (fun seg => parseLoop yaml [seg] []) := by
  induction segs with
  | nil => simp [parseLoop]
  | cons seg rest ih =>
    have h := parseLoop_append yaml [seg] rest
    simp only [List.singleton_append] at h
    rw [h, ih]
    simp [List.flatMap]

theorem segmentObject_isSome_iff (yaml : YAMLDecoder) (seg : Str) :
    (segmentObject yaml seg).isSome = true ↔
      (TrimSpace seg ≠ [] ∧ isCommentOnly (TrimSpace seg) = false ∧
        ∃ m, yaml (TrimSpace seg) = some m ∧ (m.APIVersion ≠ [] ∨ m.Kind ≠ [])) := by
  unfold segmentObject decodeObject
  by_cases h1 : TrimSpace seg = []
  · simp [h1]
  · by_cases h2 : isCommentOnly (TrimSpace seg) = true
    · simp [h1, h2]
    · cases h3 : yaml (TrimSpace seg) with
      | none => simp [h1, h2]
      | some m =>
        by_cases h4 : m.APIVersion = [] ∧ m.Kind = []
        · simp [h1, h2, h4]
        · have h5 : m.APIVersion ≠ [] ∨ m.Kind ≠ [] := by
            by_contra hc
            push_neg at hc
            exact h4 hc
          simp [h1, h2, h4, h5]

theorem segmentObject_eq_some (yaml : YAMLDecoder) (seg : Str) (o : Object)
    (h : segmentObject yaml seg = some o) :
    TrimSpace seg ≠ [] ∧ o.Raw = TrimSpace seg ++ ['\n'] ∧
      (o.APIVersion ≠ [] ∨ o.Kind ≠ []) := by
  unfold segmentObject decodeObject at h
  by_cases h1 : TrimSpace seg = []
  · simp [h1] at h
  · by_cases h2 : isCommentOnly (TrimSpace seg) = true
    · simp [h1, h2] at h
    · cases h3 : yaml (TrimSpace seg) with
      | none => simp [h1, h2, h3] at h
      | some m =>
        by_cases h4 : m.APIVersion = [] ∧ m.Kind = []
        · simp [h1, h2, h3, h4] at h
        · have h5 : m.APIVersion ≠ [] ∨ m.Kind ≠ [] := by
            by_contra hc
            push_neg at hc
            exact h4 hc
          simp [h1, h2, h3, h4] at h
          subst h
          exact ⟨h1, rfl, h5⟩

theorem segmentObject_congr (yaml : YAMLDecoder) (a b : Str) (h : TrimSpace a = TrimSpace b) :
    segmentObject yaml a = segmentObject yaml b := by
  unfold segmentObject
  rw [h]

theorem segmentObject_TrimSpace (yaml : YAMLDecoder) (seg : Str) :
    segmentObject yaml (TrimSpace seg) = segmentObject yaml seg :=
  segmentObject_congr yaml _ _ (TrimSpace_idem seg)

theorem TrimSpace_concat_newline (s : Str) : TrimSpace (s ++ ['\n']) = TrimSpace s :=
  TrimSpace_concat_space s '\n' (by decide)

/-- Parsing a stream of documents without separator lines, joined by separator lines,
gives what the documents give one by one. -/
theorem parseLoop_stream (yaml : YAMLDecoder) (init : List Str) (last : Str)
    (hinit : ∀ d ∈ init, noSeparatorLine d) (hlast : noSeparatorLine last) (hne : last ≠ []) :
    parseLoop yaml (splitYAMLDocuments (List.intercalate "\n---\n".toList (init ++ [last]))) []
      = (init ++ [last]).filterMap (segmentObject yaml) := by
  rw [splitYAMLDocuments_stream init last hinit hlast hne, parseLoop_eq_filterMap,
    List.nil_append, List.filterMap_append, List.filterMap_append, List.filterMap_map]
  congr 1
  · apply List.filterMap_congr
    intro d _
    exact segmentObject_congr yaml _ _
      (by rw [TrimSpace_TrimRightNewline, TrimSpace_concat_newline])
  · simp only [List.filterMap_cons, List.filterMap_nil]
    rw [segmentObject_congr yaml _ _ (TrimSpace_TrimRightNewline last)]

/-- What makes an object come back when its raw text is parsed again: the raw text is
a text without separator line followed by a newline, and that text gives the object. -/
theorem reparse_facts (yaml : YAMLDecoder) (data : Str) (o : Object)
    (ho : o ∈ parseLoop yaml (splitYAMLDocuments data) []) :
    o.Raw = o.Raw.dropLast ++ ['\n'] ∧ noSeparatorLine o.Raw.dropLast
      ∧ segmentObject yaml o.Raw.dropLast = some o := by
  rw [parseLoop_eq_filterMap] at ho
  simp only [List.nil_append, List.mem_filterMap] at ho
  obtain ⟨seg, hmem, hseg⟩ := ho
  obtain ⟨_, hraw, _⟩ := segmentObject_eq_some yaml seg o hseg
  have hdrop : o.Raw.dropLast = TrimSpace seg := by
    rw [hraw]
    simp
  rw [hdrop]
  refine ⟨hraw, ?_, ?_⟩
  · exact (noSeparatorLine_TrimSpace seg).mpr (splitYAMLDocuments_noSeparatorLine data seg hmem)
  · rw [segmentObject_TrimSpace]
    exact hseg

theorem intercalate_newline_shift (init : List Str) (last : Str) :
    List.intercalate "---\n".toList (init.map (fun t => t ++ ['\n']) ++ [last])
      = List.intercalate "\n---\n".toList (init ++ [last]) := by
  induction init with
  | nil => simp [List.intercalate]
  | cons t init ih =>
    obtain ⟨y, ys, hy⟩ : ∃ y ys, init ++ [last] = y :: ys := by
      cases h : init ++ [last] with
      | nil => simp at h
      | cons y ys => exact ⟨y, ys, rfl⟩
    obtain ⟨z, zs, hz⟩ : ∃ z zs, init.map (fun t => t ++ ['\n']) ++ [last] = z :: zs := by
      cases h : init.map (fun t => t ++ ['\n']) ++ [last] with
      | nil => simp at h
      | cons z zs => exact ⟨z, zs, rfl⟩
    rw [List.map_cons, List.cons_append, List.cons_append, hz, intercalate_cons_cons, ← hz, ih,
      hy, intercalate_cons_cons]
    have : "\n---\n".toList = '\n' :: "---\n".toList := by decide
    rw [this]
    simp

/-- Parsing the raw texts of objects joined by separator lines gives the objects
back, when each object is one that its own raw text gives. -/
theorem parseLoop_written (yaml : YAMLDecoder) (S : List Object)
    (hS : ∀ o ∈ S, o.Raw = o.Raw.dropLast ++ ['\n'] ∧ noSeparatorLine o.Raw.dropLast
      ∧ segmentObject yaml o.Raw.dropLast = some o) :
    parseLoop yaml
        (splitYAMLDocuments (List.intercalate "---\n".toList (S.map (fun o => o.Raw)))) []
      = S := by
  rcases List.eq_nil_or_concat S with hnil | ⟨initS, lastS, hcat⟩
  · subst hnil
    rfl
  · rw [List.concat_eq_append] at hcat
    subst hcat
    have hinitS : ∀ o ∈ initS, o.Raw = o.Raw.dropLast ++ ['\n'] ∧ noSeparatorLine o.Raw.dropLast
        ∧ segmentObject yaml o.Raw.dropLast = some o :=
      fun o ho => hS o (List.mem_append_left _ ho)
    have hlastS := hS lastS (List.mem_append_right _ (List.mem_singleton.mpr rfl))
    have hraws : (initS ++ [lastS]).map (fun o => o.Raw)
        = (initS.map (fun o => o.Raw.dropLast)).map (fun t => t ++ ['\n']) ++ [lastS.Raw] := by
      rw [List.map_append, List.map_map]
      congr 1
      apply List.map_congr_left
      intro o ho
      exact (hinitS o ho).1
    rw [hraws, intercalate_newline_shift, parseLoop_stream]
    · rw [List.filterMap_append, List.filterMap_map]
      have h1 : initS.filterMap (segmentObject yaml ∘ fun o => o.Raw.dropLast) = initS := by
        have : ∀ l : List Object, (∀ o ∈ l, segmentObject yaml o.Raw.dropLast = some o) →
            l.filterMap (segmentObject yaml ∘ fun o => o.Raw.dropLast) = l := by
          intro l
          induction l with
          | nil => intro _; rfl
          | cons o l ih =>
            intro h
            rw [List.filterMap_cons]
            simp only [Function.comp_apply, h o (List.mem_cons_self _ _)]
            rw [ih (fun o ho => h o (List.mem_cons_of_mem _ ho))]
        exact this initS (fun o ho => (hinitS o ho).2.2)
      have h2 : segmentObject yaml lastS.Raw = some lastS := by
        rw [hlastS.1, segmentObject_congr yaml _ _ (TrimSpace_concat_newline _)]
        exact hlastS.2.2
      rw [h1]
      simp [h2]
    · intro d hd
      rw [List.mem_map] at hd
      obtain ⟨o, ho, rfl⟩ := hd
      exact (hinitS o ho).2.1
    · rw [hlastS.1]
      exact (noSeparatorLine_concat_newline _).mpr hlastS.2.1
    · rw [hlastS.1]
      simp

/-! ## The parser: claims C1 to C4 -/

/-- C1: on data that was read, `Parse` returns no error and its list is, in input
order, the concatenation of what each segment of `splitYAMLDocuments` gives alone,
which is at most one object; when a segment fails to decode, the result is what the
segments before and after give, the same as with that segment absent. -/
theorem Parse_ok_concat_of_segments (yaml : YAMLDecoder) (ε : Type) (data : Str) :
    Parse yaml (Except.ok data : Except ε Str)
        = Except.ok ((splitYAMLDocuments data).flatMap (fun seg => parseLoop yaml [seg] []))
      ∧ (∀ seg : Str, (parseLoop yaml [seg] []).length ≤ 1)
      ∧ (∀ (before after : List Str) (bad : Str),
          splitYAMLDocuments data = before ++ bad :: after →
          (∃ e, decodeObject yaml (TrimSpace bad) = Except.error e) →
          Parse yaml (Except.ok data : Except ε Str)
              = Except.ok (parseLoop yaml before [] ++ parseLoop yaml after [])
            ∧ parseLoop yaml (before ++ bad :: after) [] = parseLoop yaml (before ++ after) []) := by
  refine ⟨?_, ?_, ?_⟩
  · show Except.ok (parseLoop yaml (splitYAMLDocuments data) []) = _
    rw [parseLoop_flatMap]
  · intro seg
    rw [parseLoop_singleton]
    cases segmentObject yaml seg <;> simp
  · intro before after bad hsplit hbad
    have hnone : segmentObject yaml bad = none := by
      unfold segmentObject
      by_cases h1 : TrimSpace bad = []
      · simp [h1]
      · by_cases h2 : isCommentOnly (TrimSpace bad) = true
        · simp [h1, h2]
        · cases h3 : decodeObject yaml (TrimSpace bad) with
          | error e => simp [h1, h2]
          | ok o =>
            obtain ⟨e, he⟩ := hbad
            rw [h3] at he
            cases he
    have hdrop : parseLoop yaml (before ++ bad :: after) []
        = parseLoop yaml before [] ++ parseLoop yaml after [] := by
      simp [parseLoop_eq_filterMap, hnone]
    refine ⟨?_, ?_⟩
    · show Except.ok (parseLoop yaml (splitYAMLDocuments data) []) = _
      rw [hsplit, hdrop]
    · rw [hdrop, parseLoop_append]

/-- Witness of C1: a malformed document between two pods leaves the two pods. -/
theorem Parse_ok_concat_of_segments_witness :
    Parse sampleYAML (Except.ok "kind: Pod\n---\nkind: [\n---\nkind: Pod\n".toList : Except Empty Str)
      = Except.ok [⟨[], "Pod".toList, [], [], "kind: Pod\n".toList⟩,
          ⟨[], "Pod".toList, [], [], "kind: Pod\n".toList⟩] :=
  ((Parse_ok_concat_of_segments sampleYAML Empty
      "kind: Pod\n---\nkind: [\n---\nkind: Pod\n".toList).2.2
    ["kind: Pod".toList] ["kind: Pod".toList] "kind: [".toList (by decide)
    ⟨DecodeError.yamlError, by decide⟩).1.trans (by decide)

/-- C2: a segment gives an object exactly when its trimmed text is not empty, is not
comment-only and decodes with a non-empty `apiVersion` or `kind`; the result of `Parse`
is made of these objects, each has a non-empty `APIVersion` or `Kind`, and their number
is the number of candidate segments minus the number of rejected candidates. -/
theorem Parse_object_iff_candidate_accepted (yaml : YAMLDecoder) (ε : Type) (data : Str) :
    (∀ seg : Str, parseLoop yaml [seg] [] ≠ [] ↔
        (TrimSpace seg ≠ [] ∧ isCommentOnly (TrimSpace seg) = false ∧
          ∃ m, yaml (TrimSpace seg) = some m ∧ (m.APIVersion ≠ [] ∨ m.Kind ≠ [])))
      ∧ ∃ objs : List Object,
          Parse yaml (Except.ok data : Except ε Str) = Except.ok objs
          ∧ objs = (splitYAMLDocuments data).flatMap (fun seg => parseLoop yaml [seg] [])
          ∧ (∀ o ∈ objs, o.APIVersion ≠ [] ∨ o.Kind ≠ [])
          ∧ objs.length
              = ((splitYAMLDocuments data).filter isCandidate).length
                - (((splitYAMLDocuments data).filter isCandidate).filter (isRejected yaml)).length
          ∧ (((splitYAMLDocuments data).filter isCandidate).filter (isRejected yaml)).length
              ≤ ((splitYAMLDocuments data).filter isCandidate).length := by
  refine ⟨?_, parseLoop yaml (splitYAMLDocuments data) [], rfl, parseLoop_flatMap _ _, ?_, ?_,
    List.length_filter_le _ _⟩
  · intro seg
    rw [parseLoop_singleton, ← segmentObject_isSome_iff]
    cases segmentObject yaml seg <;> simp
  · intro o ho
    rw [parseLoop_eq_filterMap] at ho
    simp only [List.nil_append, List.mem_filterMap] at ho
    obtain ⟨seg, _, hseg⟩ := ho
    exact (segmentObject_eq_some yaml seg o hseg).2.2
  · rw [parseLoop_eq_filterMap, List.nil_append]
    generalize splitYAMLDocuments data = segs
    have key : ∀ l : List Str, (l.filterMap (segmentObject yaml)).length
        + ((l.filter isCandidate).filter (isRejected yaml)).length
        = (l.filter isCandidate).length := by
      intro l
      induction l with
      | nil => rfl
      | cons seg rest ih =>
        have hiff := segmentObject_isSome_iff yaml seg
        by_cases hc : isCandidate seg = true
        · by_cases hr : isRejected yaml seg = true
          · have hs : segmentObject yaml seg = none := by
              cases hso : segmentObject yaml seg with
              | none => rfl
              | some o =>
                exfalso
                rw [hso] at hiff
                obtain ⟨_, _, m, hm, hmm⟩ := hiff.mp rfl
                unfold isRejected at hr
                rw [hm] at hr
                simp at hr
                rcases hmm with h | h
                · exact h hr.1
                · exact h hr.2
            simp only [List.filterMap_cons, hs, List.filter_cons, hc, hr, if_true, if_false,
              List.length_cons, Bool.false_eq_true]
            omega
          · obtain ⟨o, hs⟩ : ∃ o, segmentObject yaml seg = some o := by
              cases hso : segmentObject yaml seg with
              | some o => exact ⟨o, rfl⟩
              | none =>
                exfalso
                rw [hso] at hiff
                have hcand : TrimSpace seg ≠ [] ∧ isCommentOnly (TrimSpace seg) = false := by
                  unfold isCandidate at hc
                  simpa using hc
                apply hr
                unfold isRejected
                cases hy : yaml (TrimSpace seg) with
                | none => rfl
                | some m =>
                  by_cases h4 : m.APIVersion = [] ∧ m.Kind = []
                  · simp [h4]
                  · exfalso
                    have h5 : m.APIVersion ≠ [] ∨ m.Kind ≠ [] := by
                      by_contra hcc
                      push_neg at hcc
                      exact h4 hcc
                    have := hiff.mpr ⟨hcand.1, hcand.2, m, hy, h5⟩
                    simp at this
            simp only [List.filterMap_cons, hs, List.filter_cons, hc, hr, if_true, if_false,
              List.length_cons, Bool.false_eq_true]
            omega
        · have hs : segmentObject yaml seg = none := by
            cases hso : segmentObject yaml seg with
            | none => rfl
            | some o =>
              exfalso
              rw [hso] at hiff
              obtain ⟨h1, h2, _⟩ := hiff.mp rfl
              apply hc
              unfold isCandidate
              simp [h1, h2]
          simp only [List.filterMap_cons, hs, List.filter_cons, hc, if_false]
          exact ih
    have := key segs
    omega

/-- C4: every object of `Parse` has `Raw` equal to the trimmed text of a segment,
which is not empty, followed by a newline; so `Raw` ends with one newline and not
with two. -/
theorem Parse_Raw_trimmed_one_newline (yaml : YAMLDecoder) (ε : Type) (data : Str)
    (objs : List Object) (hparse : Parse yaml (Except.ok data : Except ε Str) = Except.ok objs)
    (o : Object) (ho : o ∈ objs) :
    ∃ seg ∈ splitYAMLDocuments data,
      TrimSpace seg ≠ [] ∧ o.Raw = TrimSpace seg ++ ['\n']
        ∧ HasSuffix o.Raw ['\n'] = true ∧ HasSuffix o.Raw ['\n', '\n'] = false := by
  have hobjs : objs = parseLoop yaml (splitYAMLDocuments data) [] := by
    have h : Except.ok (parseLoop yaml (splitYAMLDocuments data) []) = (Except.ok objs : Except ε _) :=
      hparse
    injection h with h
    exact h.symm
  rw [hobjs, parseLoop_eq_filterMap] at ho
  simp only [List.nil_append, List.mem_filterMap] at ho
  obtain ⟨seg, hmem, hseg⟩ := ho
  obtain ⟨hne, hraw, _⟩ := segmentObject_eq_some yaml seg o hseg
  refine ⟨seg, hmem, hne, hraw, ?_, ?_⟩
  · rw [hraw]
    simp [HasSuffix]
  · rw [hraw]
    have hlast : ∀ c, (TrimSpace seg).getLast? = some c → c ≠ '\n' := by
      intro c hc hcn
      have := TrimSpace_getLast_not_space seg c hc
      rw [hcn] at this
      exact absurd this (by decide)
    cases hb : HasSuffix (TrimSpace seg ++ ['\n']) ['\n', '\n'] with
    | false => rfl
    | true =>
      exfalso
      unfold HasSuffix at hb
      rw [List.isSuffixOf_iff_suffix] at hb
      obtain ⟨t, ht⟩ := hb
      have h2 : t ++ ['\n'] ++ ['\n'] = TrimSpace seg ++ ['\n'] := by
        rw [← ht]
        simp
      have h3 := List.append_cancel_right h2
      exact hlast '\n' (by rw [← h3]; simp) rfl

/-- Witness of C4: a document with several trailing newlines. -/
theorem Parse_Raw_trimmed_one_newline_witness :
    ∃ seg ∈ splitYAMLDocuments "kind: Pod\n\n\n".toList,
      TrimSpace seg ≠ [] ∧ "kind: Pod\n".toList = TrimSpace seg ++ ['\n']
        ∧ HasSuffix "kind: Pod\n".toList ['\n'] = true
        ∧ HasSuffix "kind: Pod\n".toList ['\n', '\n'] = false :=
  Parse_Raw_trimmed_one_newline sampleYAML Empty "kind: Pod\n\n\n".toList
    [⟨[], "Pod".toList, [], [], "kind: Pod\n".toList⟩] (by decide)
    ⟨[], "Pod".toList, [], [], "kind: Pod\n".toList⟩ (by decide)

/-- C3, as stated, fails: the segment `  kind: Pod  ` has no blank line to remove, so
the claim gives `Raw` its text unchanged plus a newline, while `Parse` returns `Raw`
without the indentation and without the trailing spaces. -/
theorem Parse_Raw_not_blank_line_trim :
    splitYAMLDocuments "  kind: Pod  ".toList = ["  kind: Pod  ".toList]
      ∧ trimBlankLines "  kind: Pod  ".toList ++ ['\n'] = "  kind: Pod  \n".toList
      ∧ Parse sampleYAML (Except.ok "  kind: Pod  ".toList : Except Empty Str)
          = Except.ok [⟨[], "Pod".toList, [], [], "kind: Pod\n".toList⟩]
      ∧ ¬ (∀ (yaml : YAMLDecoder) (data : Str) (objs : List Object),
            Parse yaml (Except.ok data : Except Empty Str) = Except.ok objs →
            ∀ o ∈ objs, ∃ seg ∈ splitYAMLDocuments data,
              o.Raw = trimBlankLines seg ++ ['\n']) := by
  refine ⟨by decide, by decide, by decide, ?_⟩
  intro h
  obtain ⟨seg, hseg, hraw⟩ := h sampleYAML "  kind: Pod  ".toList
    [⟨[], "Pod".toList, [], [], "kind: Pod\n".toList⟩] (by decide) _ (List.mem_singleton.mpr rfl)
  have hs : splitYAMLDocuments "  kind: Pod  ".toList = ["  kind: Pod  ".toList] := by decide
  rw [hs, List.mem_singleton] at hseg
  subst hseg
  revert hraw
  decide

/-- C3, amended: every object of `Parse` has `Raw` equal to a segment with all its
leading and all its trailing white space removed, followed by one newline: the
segment is `lead ++ core ++ trail` with `lead` and `trail` white space only, `core`
not empty, beginning and ending with a character that is not white space, and `Raw`
is `core` and a newline. -/
theorem Parse_Raw_whitespace_trim (yaml : YAMLDecoder) (ε : Type) (data : Str)
    (objs : List Object) (hparse : Parse yaml (Except.ok data : Except ε Str) = Except.ok objs)
    (o : Object) (ho : o ∈ objs) :
    ∃ seg ∈ splitYAMLDocuments data, ∃ lead core trail : Str,
      seg = lead ++ core ++ trail
        ∧ (∀ c ∈ lead, isSpace c = true) ∧ (∀ c ∈ trail, isSpace c = true)
        ∧ (∃ c, core.head? = some c ∧ isSpace c = false)
        ∧ (∃ c, core.getLast? = some c ∧ isSpace c = false)
        ∧ o.Raw = core ++ ['\n'] := by
  have hobjs : objs = parseLoop yaml (splitYAMLDocuments data) [] := by
    have h : Except.ok (parseLoop yaml (splitYAMLDocuments data) []) = (Except.ok objs : Except ε _) :=
      hparse
    injection h with h
    exact h.symm
  rw [hobjs, parseLoop_eq_filterMap] at ho
  simp only [List.nil_append, List.mem_filterMap] at ho
  obtain ⟨seg, hmem, hseg⟩ := ho
  obtain ⟨hne, hraw, _⟩ := segmentObject_eq_some yaml seg o hseg
  obtain ⟨lead, trail, hdec, hlead, htrail⟩ := TrimSpace_decomp seg
  refine ⟨seg, hmem, lead, TrimSpace seg, trail, hdec, hlead, htrail, ?_, ?_, hraw⟩
  · cases hh : (TrimSpace seg).head? with
    | none => exact absurd (List.head?_eq_none_iff.mp hh) hne
    | some c => exact ⟨c, rfl, TrimSpace_head_not_space seg c hh⟩
  · cases hh : (TrimSpace seg).getLast? with
    | none => exact absurd (List.getLast?_eq_none_iff.mp hh) hne
    | some c => exact ⟨c, rfl, TrimSpace_getLast_not_space seg c hh⟩

/-- Witness of C3, amended: indentation and trailing spaces are removed. -/
theorem Parse_Raw_whitespace_trim_witness :
    ∃ seg ∈ splitYAMLDocuments "  kind: Pod  ".toList, ∃ lead core trail : Str,
      seg = lead ++ core ++ trail
        ∧ (∀ c ∈ lead, isSpace c = true) ∧ (∀ c ∈ trail, isSpace c = true)
        ∧ (∃ c, core.head? = some c ∧ isSpace c = false)
        ∧ (∃ c, core.getLast? = some c ∧ isSpace c = false)
        ∧ "kind: Pod\n".toList = core ++ ['\n'] :=
  Parse_Raw_whitespace_trim sampleYAML Empty "  kind: Pod  ".toList
    [⟨[], "Pod".toList, [], [], "kind: Pod\n".toList⟩] (by decide)
    ⟨[], "Pod".toList, [], [], "kind: Pod\n".toList⟩ (by decide)

/-! ## Facts about the selection and the writer -/

theorem chosenLoop_eq (objs : List Object) (selections : List Int) (chosen : List Object) :
    chosenLoop objs selections chosen = Except.ok (chosen ++ objectsAt objs selections) := by
  induction selections generalizing chosen with
  | nil => simp [chosenLoop, objectsAt]
  | cons idx rest ih =>
    unfold chosenLoop
    by_cases h : idx < 0 ∨ idx ≥ (objs.length : Int)
    · have h2 : ¬ (0 ≤ idx ∧ idx < (objs.length : Int)) := by omega
      rw [if_pos h, ih]
      simp [objectsAt, h2]
    · have h2 : 0 ≤ idx ∧ idx < (objs.length : Int) := by omega
      have h3 : idx.toNat < objs.length := by omega
      rw [if_neg h]
      have h4 : objs[idx.toNat]? = some objs[idx.toNat] := List.getElem?_eq_getElem h3
      rw [h4]
      simp only []
      rw [ih]
      simp [objectsAt, h2, h4]

theorem mem_objectsAt (objs : List Object) (selections : List Int) (o : Object)
    (h : o ∈ objectsAt objs selections) : o ∈ objs := by
  unfold objectsAt at h
  rw [List.mem_filterMap] at h
  obtain ⟨idx, _, hidx⟩ := h
  split at hidx
  · exact List.getElem?_mem hidx
  · cases hidx

/-- What `Select` returns is an error other than the panic, or the result of the
index mapping on the parsed output of a successful run of the chooser. -/
theorem Select_cases (env : Env) (objs : List Object) (opts : Options) :
    (∃ e, Select env objs opts = Except.error e ∧ e ≠ SelectError.indexOutOfRange)
      ∨ ∃ bin args stdin out, env.runChooser bin args stdin = RunResult.ok out
          ∧ Select env objs opts = chosenLoop objs (parseSelectionOutput out) [] := by
  unfold Select
  split
  · exact Or.inl ⟨_, rfl, by decide⟩
  · simp only []
    split
    · exact Or.inl ⟨_, rfl, by decide⟩
    · split
      · exact Or.inl ⟨_, rfl, by decide⟩
      · split
        · exact Or.inl ⟨_, rfl, by decide⟩
        · split
          · split
            · exact Or.inl ⟨_, rfl, by decide⟩
            · exact Or.inl ⟨_, rfl, by decide⟩
          · exact Or.inl ⟨_, rfl, by decide⟩
          · rename_i out hout
            split
            · exact Or.inl ⟨_, rfl, by decide⟩
            · exact Or.inr ⟨_, _, _, out, hout, rfl⟩

theorem writeLoop_buffer_succ (env : Env) (objs : List Object) (i : Nat) (w : Str) :
    writeLoop env bufferWriter (i + 1) objs w
      = Except.ok (w ++ (objs.map (fun o => "---\n".toList ++ documentContent env o)).flatten) := by
  induction objs generalizing i w with
  | nil => simp [writeLoop]
  | cons o rest ih =>
    unfold writeLoop
    simp only [bufferWriter, Nat.succ_pos, if_true, gt_iff_lt]
    have := ih (i + 1) (w ++ "---\n".toList ++ documentContent env o)
    simp only [bufferWriter] at this
    rw [this]
    simp

theorem WriteSelected_buffer (env : Env) (objs : List Object) (w : Str) :
    WriteSelected env bufferWriter w objs
      = Except.ok (w ++ List.intercalate "---\n".toList (objs.map (documentContent env))) := by
  unfold WriteSelected
  cases objs with
  | nil => simp [writeLoop, List.intercalate]
  | cons o rest =>
    unfold writeLoop
    simp only [bufferWriter, gt_iff_lt, lt_self_iff_false, if_false]
    have := writeLoop_buffer_succ env rest 0 (w ++ documentContent env o)
    simp only [bufferWriter, Nat.zero_add] at this
    rw [this, List.map_cons, intercalate_cons_eq]
    simp [List.map_map, Function.comp_def]

theorem documentContent_unavailable (env : Env) (h : env.detectYQ = [] ∨ env.NO_YQ ≠ [])
    (o : Object) : documentContent env o = o.Raw := by
  unfold documentContent
  have : ¬ (env.detectYQ ≠ [] ∧ env.NO_YQ = []) := by
    rintro ⟨h1, h2⟩
    rcases h with h | h
    · exact h1 h
    · exact h h2
  simp only [this, if_false]


/-! ## The writer and the selection: claims C7 to C10 -/

/-- C7: with the formatter unavailable (no `yq` found, or `kustomize-fzf_NO_YQ` set),
`WriteSelected` appends to the buffer exactly the raw texts of the objects with one
`---` line between consecutive ones, none before the first or after the last, and
nothing for the empty list. -/
theorem WriteSelected_raw_separated (env : Env) (hno : env.detectYQ = [] ∨ env.NO_YQ ≠ [])
    (buf : Str) (objs : List Object) :
    WriteSelected env bufferWriter buf objs
        = Except.ok (buf ++ List.intercalate "---\n".toList (objs.map (fun o => o.Raw)))
      ∧ WriteSelected env bufferWriter buf [] = Except.ok buf := by
  constructor
  · rw [WriteSelected_buffer]
    have : objs.map (documentContent env) = objs.map (fun o => o.Raw) :=
      List.map_congr_left (fun o _ => documentContent_unavailable env hno o)
    rw [this]
  · rfl

/-- Witness of C7: two objects are written with one separator between them. -/
theorem WriteSelected_raw_separated_witness :
    WriteSelected (sampleEnv []) bufferWriter [] sampleObjects
      = Except.ok "kind: ConfigMap\n---\nkind: Deployment\n".toList :=
  (WriteSelected_raw_separated (sampleEnv []) (Or.inl rfl) [] sampleObjects).1.trans (by decide)

/-- C8: with a formatter in use (`yq` found and `kustomize-fzf_NO_YQ` empty),
`WriteSelected` returns no error on a buffer and writes, for each object, its raw text
when the formatter fails or returns blank output, and otherwise the formatter's
output, with a newline appended exactly when that output does not end with one. -/
theorem WriteSelected_formatter_fallback (env : Env)
    (hyq : env.detectYQ ≠ [] ∧ env.NO_YQ = []) (buf : Str) (objs : List Object) :
    WriteSelected env bufferWriter buf objs
        = Except.ok (buf ++ List.intercalate "---\n".toList (objs.map (documentContent env)))
      ∧ ∀ o : Object,
          (env.runYQ env.detectYQ o.Raw (env.NO_COLOR == []) = none →
            documentContent env o = o.Raw)
          ∧ ∀ formatted : Str,
              env.runYQ env.detectYQ o.Raw (env.NO_COLOR == []) = some formatted →
              (TrimSpace formatted = [] → documentContent env o = o.Raw)
              ∧ (TrimSpace formatted ≠ [] → HasSuffix formatted ['\n'] = true →
                  documentContent env o = formatted)
              ∧ (TrimSpace formatted ≠ [] → HasSuffix formatted ['\n'] = false →
                  documentContent env o = formatted ++ ['\n']) := by
  refine ⟨WriteSelected_buffer env objs buf, ?_⟩
  intro o
  refine ⟨?_, ?_⟩
  · intro hfail
    unfold documentContent
    simp only [hyq, ne_eq, not_false_eq_true, and_self, if_true, hfail]
  · intro formatted hok
    refine ⟨?_, ?_, ?_⟩
    · intro hblank
      unfold documentContent
      simp only [hyq, ne_eq, not_false_eq_true, and_self, if_true, hok]
      simp [hblank]
    · intro hnb hsuf
      unfold documentContent
      simp only [hyq, ne_eq, not_false_eq_true, and_self, if_true, hok]
      simp [hnb, hsuf]
    · intro hnb hsuf
      unfold documentContent
      simp only [hyq, ne_eq, not_false_eq_true, and_self, if_true, hok]
      simp [hnb, hsuf]

/-- Witness of C8: the formatter fails on the first object and returns the second one
reformatted and without a final newline. -/
theorem WriteSelected_formatter_fallback_witness :
    WriteSelected sampleFormatterEnv bufferWriter [] sampleObjects
      = Except.ok "kind: ConfigMap\n---\nkind:   Deployment\n".toList :=
  (WriteSelected_formatter_fallback sampleFormatterEnv (by decide) [] sampleObjects).1.trans
    (by decide)

/-- C9: the index mapping of `Select` never indexes outside `objs`: for every list of
selected integers it returns the objects at the indices within `0 ≤ idx < len(objs)`,
in the order of the selection; each of them is an element of `objs`, the other indices
add nothing, and `Select` never ends in an index panic. -/
theorem Select_maps_indices_in_range (objs : List Object) (selections : List Int) :
    chosenLoop objs selections [] = Except.ok (objectsAt objs selections)
      ∧ (∀ o ∈ objectsAt objs selections, o ∈ objs)
      ∧ (∀ (out_of_range : List Int),
          (∀ idx ∈ out_of_range, idx < 0 ∨ (objs.length : Int) ≤ idx) →
          objectsAt objs out_of_range = [])
      ∧ (∀ (env : Env) (opts : Options),
          Select env objs opts ≠ Except.error SelectError.indexOutOfRange
          ∧ ∀ chosen, Select env objs opts = Except.ok chosen →
              ∃ bin args stdin out, env.runChooser bin args stdin = RunResult.ok out
                ∧ chosen = objectsAt objs (parseSelectionOutput out)) := by
  refine ⟨?_, mem_objectsAt objs selections, ?_, ?_⟩
  · rw [chosenLoop_eq, List.nil_append]
  · intro l hl
    unfold objectsAt
    rw [List.filterMap_eq_nil_iff]
    intro idx hidx
    have := hl idx hidx
    have h2 : ¬ (0 ≤ idx ∧ idx < (objs.length : Int)) := by omega
    simp only [h2, if_false]
  · intro env opts
    rcases Select_cases env objs opts with ⟨e, he, hne⟩ | ⟨bin, args, stdin, out, hrun, hsel⟩
    · refine ⟨?_, ?_⟩
      · rw [he]
        intro h
        injection h with h
        exact hne h
      · intro chosen hc
        rw [he] at hc
        cases hc
    · rw [hsel, chosenLoop_eq, List.nil_append]
      refine ⟨?_, ?_⟩
      · intro h
        cases h
      · intro chosen hc
        injection hc with hc
        exact ⟨bin, args, stdin, out, hrun, hc.symm⟩

/-- Witness of C9: a negative index and an index past the end add nothing. -/
theorem Select_maps_indices_in_range_witness :
    objectsAt sampleObjects [-1, 2, 7] = [] :=
  (Select_maps_indices_in_range sampleObjects []).2.2.1 [-1, 2, 7] (by decide)

/-- C10, as stated, fails: when the chooser lists the second object before the first,
`Select` returns them in that order, and no non-decreasing list of positions in `objs`
gives the returned list. -/
theorem Select_not_in_original_order :
    Select (sampleEnv "1\tDeployment web\n0\tConfigMap cm1\n".toList) sampleObjects sampleOptions
        = Except.ok
          [⟨"apps/v1".toList, "Deployment".toList, [], "web".toList, "kind: Deployment\n".toList⟩,
            ⟨"v1".toList, "ConfigMap".toList, "ns".toList, "cm1".toList,
              "kind: ConfigMap\n".toList⟩]
      ∧ ¬ (∀ (env : Env) (objs : List Object) (opts : Options) (chosen : List Object),
            Select env objs opts = Except.ok chosen →
            ∃ positions : List Nat, List.Pairwise (fun p q => p ≤ q) positions
              ∧ chosen.map some = positions.map (fun p => objs[p]?)) := by
  refine ⟨by decide, ?_⟩
  intro h
  obtain ⟨positions, hsorted, hmap⟩ :=
    h (sampleEnv "1\tDeployment web\n0\tConfigMap cm1\n".toList) sampleObjects sampleOptions
      [⟨"apps/v1".toList, "Deployment".toList, [], "web".toList, "kind: Deployment\n".toList⟩,
        ⟨"v1".toList, "ConfigMap".toList, "ns".toList, "cm1".toList, "kind: ConfigMap\n".toList⟩]
      (by decide)
  match positions, hsorted, hmap with
  | [], _, hmap => simp at hmap
  | [_], _, hmap => simp at hmap
  | _ :: _ :: _ :: _, _, hmap => simp at hmap
  | [p, q], hsorted, hmap =>
    have hpq : p ≤ q := by simpa using hsorted
    simp only [List.map_cons, List.map_nil, List.cons.injEq, and_true] at hmap
    obtain ⟨hp, hq⟩ := hmap
    match p, q, hpq, hp, hq with
    | 0, _, _, hp, _ => exact absurd hp (by decide)
    | p + 2, _, _, hp, _ => simp [sampleObjects] at hp
    | 1, 0, hpq, _, _ => omega
    | 1, q + 1, _, _, hq =>
      match q, hq with
      | 0, hq => exact absurd hq (by decide)
      | q + 1, hq => simp [sampleObjects] at hq

/-- C10, amended: `Select` returns the selected objects in the order of the chooser's
output.  The positions in `objs` of the objects returned by the index mapping are, in
order, the indices within range parsed from that output, so they are non-decreasing
when the chooser lists its indices in non-decreasing order. -/
theorem Select_in_selection_order (objs : List Object) (out : Str) :
    ∃ chosen : List Object,
      chosenLoop objs (parseSelectionOutput out) [] = Except.ok chosen
        ∧ chosen.map some
            = (positionsOf objs.length (parseSelectionOutput out)).map (fun p => objs[p]?)
        ∧ (positionsOf objs.length (parseSelectionOutput out)).map Int.ofNat
            = (parseSelectionOutput out).filter
                (fun idx => decide (0 ≤ idx ∧ idx < (objs.length : Int)))
        ∧ (List.Pairwise (fun i j => i ≤ j) (parseSelectionOutput out) →
            List.Pairwise (fun p q => p ≤ q)
              (positionsOf objs.length (parseSelectionOutput out))) := by
  generalize parseSelectionOutput out = sel
  refine ⟨objectsAt objs sel, ?_, ?_, ?_, ?_⟩
  · rw [chosenLoop_eq, List.nil_append]
  · induction sel with
    | nil => rfl
    | cons idx rest ih =>
      unfold objectsAt positionsOf at ih ⊢
      by_cases h : 0 ≤ idx ∧ idx < (objs.length : Int)
      · have h3 : idx.toNat < objs.length := by omega
        have h4 : objs[idx.toNat]? = some objs[idx.toNat] := List.getElem?_eq_getElem h3
        simp only [List.filterMap_cons, h, and_self, if_true, h4, List.map_cons, ih]
      · simp only [List.filterMap_cons, h, if_false, ih]
  · induction sel with
    | nil => rfl
    | cons idx rest ih =>
      unfold positionsOf at ih ⊢
      by_cases h : 0 ≤ idx ∧ idx < (objs.length : Int)
      · have h5 : Int.ofNat idx.toNat = idx := Int.toNat_of_nonneg h.1
        simp only [List.filterMap_cons, h, and_self, if_true, List.map_cons, ih, h5,
          List.filter_cons, decide_True]
      · simp only [List.filterMap_cons, h, if_false, ih, List.filter_cons, decide_False,
          Bool.false_eq_true]
  · intro hs
    induction sel with
    | nil => exact List.Pairwise.nil
    | cons idx rest ih =>
      rw [List.pairwise_cons] at hs
      unfold positionsOf at ih ⊢
      by_cases h : 0 ≤ idx ∧ idx < (objs.length : Int)
      · simp only [List.filterMap_cons, h, and_self, if_true]
        rw [List.pairwise_cons]
        refine ⟨?_, ih hs.2⟩
        intro q hq
        rw [List.mem_filterMap] at hq
        obtain ⟨j, hj, hjq⟩ := hq
        have hij := hs.1 j hj
        split at hjq
        · injection hjq with hjq
          omega
        · cases hjq
      · simp only [List.filterMap_cons, h, if_false]
        exact ih hs.2

/-- Witness of C10, amended: a chooser output in ascending order gives the objects in
their original order. -/
theorem Select_in_selection_order_witness :
    Select (sampleEnv "0\tConfigMap cm1\n1\tDeployment web\n".toList) sampleObjects sampleOptions
        = Except.ok sampleObjects
      ∧ ∃ chosen : List Object,
        chosenLoop sampleObjects
            (parseSelectionOutput "0\tConfigMap cm1\n1\tDeployment web\n".toList) []
          = Except.ok chosen
        ∧ List.Pairwise (fun p q => p ≤ q)
            (positionsOf sampleObjects.length
              (parseSelectionOutput "0\tConfigMap cm1\n1\tDeployment web\n".toList)) :=
  ⟨by decide,
    (Select_in_selection_order sampleObjects "0\tConfigMap cm1\n1\tDeployment web\n".toList).elim
      (fun chosen h => ⟨chosen, h.1, h.2.2.2 (by decide)⟩)⟩

/-! ## Round trips through the parser and the writer: claims C5 and C6 -/

/-- C6: with the formatter unavailable and the decoder a function of the text, for
every input and every list of objects taken from what `Parse` returns on it (any
selection, in any order, with repeats), `WriteSelected` writes a text on which `Parse`
returns exactly that list. -/
theorem Parse_WriteSelected_idempotent (yaml : YAMLDecoder) (env : Env) (ε : Type)
    (hno : env.detectYQ = [] ∨ env.NO_YQ ≠ [])
    (data : Str) (objs : List Object)
    (hparse : Parse yaml (Except.ok data : Except ε Str) = Except.ok objs)
    (S : List Object) (hS : ∀ o ∈ S, o ∈ objs) :
    ∃ written : Str,
      WriteSelected env bufferWriter [] S = Except.ok written
        ∧ Parse yaml (Except.ok written : Except ε Str) = Except.ok S := by
  have hobjs : objs = parseLoop yaml (splitYAMLDocuments data) [] := by
    have h : Except.ok (parseLoop yaml (splitYAMLDocuments data) []) = (Except.ok objs : Except ε _) :=
      hparse
    injection h with h
    exact h.symm
  refine ⟨List.intercalate "---\n".toList (S.map (fun o => o.Raw)), ?_, ?_⟩
  · rw [WriteSelected_buffer, List.nil_append]
    have : S.map (documentContent env) = S.map (fun o => o.Raw) :=
      List.map_congr_left (fun o _ => documentContent_unavailable env hno o)
    rw [this]
  · show Except.ok (parseLoop yaml (splitYAMLDocuments _) []) = _
    rw [parseLoop_written yaml S
      (fun o ho => reparse_facts yaml data o (by rw [← hobjs]; exact hS o ho))]

/-- Witness of C6: the two objects of a stream, selected in the opposite order. -/
theorem Parse_WriteSelected_idempotent_witness :
    ∃ written : Str,
      WriteSelected (sampleEnv []) bufferWriter []
          [⟨"v1".toList, "ConfigMap".toList, "ns".toList, "cm1".toList,
              "apiVersion: v1\nkind: ConfigMap\nmetadata:\n  name: cm1\n  namespace: ns\n".toList⟩,
            ⟨[], "Pod".toList, [], [], "kind: Pod\n".toList⟩]
        = Except.ok written
        ∧ Parse sampleYAML (Except.ok written : Except Empty Str)
          = Except.ok
            [⟨"v1".toList, "ConfigMap".toList, "ns".toList, "cm1".toList,
                "apiVersion: v1\nkind: ConfigMap\nmetadata:\n  name: cm1\n  namespace: ns\n".toList⟩,
              ⟨[], "Pod".toList, [], [], "kind: Pod\n".toList⟩] :=
  Parse_WriteSelected_idempotent sampleYAML (sampleEnv []) Empty (Or.inl rfl)
    "  kind: Pod\n---\n\napiVersion: v1\nkind: ConfigMap\nmetadata:\n  name: cm1\n  namespace: ns\n".toList
    [⟨[], "Pod".toList, [], [], "kind: Pod\n".toList⟩,
      ⟨"v1".toList, "ConfigMap".toList, "ns".toList, "cm1".toList,
        "apiVersion: v1\nkind: ConfigMap\nmetadata:\n  name: cm1\n  namespace: ns\n".toList⟩]
    (by decide) _ (by decide)

/-! ## Facts about the decimal rendering and the candidate lines -/

theorem digitChar_decimal (m : Nat) (hm : m < 10) :
    (Nat.digitChar m).isDigit = true ∧ (Nat.digitChar m).toNat - '0'.toNat = m := by
  interval_cases m <;> decide

theorem digitsValue_concat (ds : Str) (c : Char) :
    digitsValue (ds ++ [c]) = digitsValue ds * 10 + (c.toNat - '0'.toNat) := by
  simp [digitsValue, List.foldl_append]

/-- With enough fuel the digit loop puts in front of the accumulator a non-empty run of
decimal digits whose value is the number. -/
theorem toDigitsCore_decimal (fuel n : Nat) (acc : Str) (hfuel : n < fuel) :
    ∃ run : Str, run ≠ [] ∧ digitsValue run = n ∧ (∀ c ∈ run, c.isDigit = true)
      ∧ Nat.toDigitsCore 10 fuel n acc = run ++ acc := by
  induction fuel generalizing n acc with
  | zero => omega
  | succ fuel ih =>
    obtain ⟨hdigit, hvalue⟩ := digitChar_decimal (n % 10) (Nat.mod_lt _ (by decide))
    rw [Nat.toDigitsCore]
    by_cases hzero : n / 10 = 0
    · refine ⟨[Nat.digitChar (n % 10)], by simp, ?_, ?_, by simp [hzero]⟩
      · have hone : digitsValue [Nat.digitChar (n % 10)]
            = (Nat.digitChar (n % 10)).toNat - '0'.toNat := by
          simp [digitsValue]
        rw [hone, hvalue]
        omega
      · intro c hc
        rw [List.mem_singleton.mp hc]
        exact hdigit
    · obtain ⟨run, hne, hval, hall, hrun⟩ :=
        ih (n / 10) (Nat.digitChar (n % 10) :: acc) (by omega)
      refine ⟨run ++ [Nat.digitChar (n % 10)], by simp, ?_, ?_, ?_⟩
      · rw [digitsValue_concat, hval, hvalue]
        omega
      · intro c hc
        rcases List.mem_append.mp hc with hc | hc
        · exact hall c hc
        · rw [List.mem_singleton.mp hc]
          exact hdigit
      · simp only [hzero, if_false]
        rw [hrun]
        simp

theorem decimal_spec (n : Nat) :
    decimal n ≠ [] ∧ (∀ c ∈ decimal n, c.isDigit = true) ∧ digitsValue (decimal n) = n := by
  obtain ⟨run, hne, hval, hall, hrun⟩ := toDigitsCore_decimal (n + 1) n [] (by omega)
  have h : decimal n = run := by
    unfold decimal Nat.toDigits
    rw [hrun, List.append_nil]
  rw [h]
  exact ⟨hne, hall, hval⟩

theorem isDigit_not_space (c : Char) (h : c.isDigit = true) :
    isSpace c = false ∧ c ≠ '\n' ∧ c ≠ '\t' ∧ c ≠ '\r' ∧ c ≠ '+' ∧ c ≠ '-' := by
  have h1 : 48 ≤ c.toNat ∧ c.toNat ≤ 57 := by
    simp only [Char.isDigit, Bool.and_eq_true, decide_eq_true_eq] at h
    have a : (48 : UInt32) ≤ c.val := h.1
    have b : c.val ≤ (57 : UInt32) := h.2
    rw [UInt32.le_def] at a b
    exact ⟨a, b⟩
  refine ⟨?_, ?_, ?_, ?_, ?_, ?_⟩
  · unfold isSpace
    simp
    omega
  all_goals
    intro hc
    rw [hc] at h1
    revert h1
    decide

theorem buildLoop_eq (noColor showAPI showNS : Bool) (objs : List Object) (i : Nat)
    (lines : List Str) :
    buildLoop noColor showAPI showNS i objs lines
      = lines ++ (objs.enumFrom i).map (fun p => candidateLine (!noColor) showAPI showNS p.1 p.2) := by
  induction objs generalizing i lines with
  | nil => simp [buildLoop]
  | cons o rest ih =>
    rw [buildLoop, ih]
    simp only [List.enumFrom_cons, List.map_cons, List.append_assoc, List.singleton_append]
    congr 2
    unfold candidateLine kindLabel nameLabel
    cases noColor <;> simp

theorem buildFZFInputLines_getElem? (env : Env) (objs : List Object) (showAPI showNS : Bool)
    (i : Nat) :
    (buildFZFInputLines env objs showAPI showNS)[i]?
      = objs[i]?.map (fun o => candidateLine (env.NO_COLOR == []) showAPI showNS i o) := by
  have hb : (!(env.NO_COLOR != [])) = (env.NO_COLOR == []) := by
    cases env.NO_COLOR <;> rfl
  unfold buildFZFInputLines
  rw [buildLoop_eq, hb, List.nil_append, List.getElem?_map, List.getElem?_enumFrom]
  cases objs[i]? <;> simp

theorem buildFZFInputLines_length (env : Env) (objs : List Object) (showAPI showNS : Bool) :
    (buildFZFInputLines env objs showAPI showNS).length = objs.length := by
  unfold buildFZFInputLines
  rw [buildLoop_eq]
  simp

theorem Split_intercalate (ls : List Str) (hne : ls ≠ []) (h : ∀ l ∈ ls, '\n' ∉ l) :
    Split '\n' (List.intercalate ['\n'] ls) = ls := by
  induction ls with
  | nil => exact absurd rfl hne
  | cons l ls ih =>
    cases ls with
    | nil =>
      have : List.intercalate ['\n'] [l] = l := by simp [List.intercalate]
      rw [this, Split_of_not_mem _ _ (h l (List.mem_cons_self _ _))]
    | cons l1 ls =>
      rw [intercalate_cons_cons, List.append_assoc, List.singleton_append, Split_append_sep,
        Split_of_not_mem _ _ (h l (List.mem_cons_self _ _)),
        ih (by simp) (fun x hx => h x (List.mem_cons_of_mem _ hx))]
      rfl

theorem candidateLine_newline_free (colour showAPI showNS : Bool) (i : Nat) (o : Object)
    (ho : fieldsNewlineFree o) : '\n' ∉ candidateLine colour showAPI showNS i o := by
  obtain ⟨h1, h2, h3, h4⟩ := ho
  have hd : '\n' ∉ decimal i := by
    intro hmem
    exact (isDigit_not_space _ ((decimal_spec i).2.1 _ hmem)).2.1 rfl
  have hk : '\n' ∉ kindLabel showAPI o := by
    unfold kindLabel
    split <;> split <;> simp [h1, h2]
  have hn : '\n' ∉ nameLabel showNS o := by
    unfold nameLabel
    split <;> split <;> simp [h3, h4]
  have hp : '\n' ∉ kindColorPrefix := by decide
  have hr : '\n' ∉ colorReset := by decide
  unfold candidateLine
  cases colour <;> simp [hd, hk, hn, hp, hr]

/-! ## The candidate lines: claims C11, C19 and C20 -/

/-- C11: with colour disabled (`kustomize-fzf_NO_COLOR` set), `buildFZFInputLines`
returns as many lines as there are objects, and the line of the object at index `i`
is the decimal index, a tab, the kind label, a space and the name label. -/
theorem buildFZFInputLines_no_colour (env : Env) (hnc : env.NO_COLOR ≠ [])
    (objs : List Object) (showAPIVersion showNamespace : Bool) :
    (buildFZFInputLines env objs showAPIVersion showNamespace).length = objs.length
      ∧ ∀ (i : Nat) (o : Object), objs[i]? = some o →
          (buildFZFInputLines env objs showAPIVersion showNamespace)[i]?
            = some (decimal i ++ ['\t'] ++ kindLabel showAPIVersion o ++ [' ']
                ++ nameLabel showNamespace o) := by
  refine ⟨buildFZFInputLines_length env objs _ _, ?_⟩
  intro i o ho
  have hc : (env.NO_COLOR == []) = false := by
    cases h : env.NO_COLOR with
    | nil => exact absurd h hnc
    | cons c cs => rfl
  rw [buildFZFInputLines_getElem?, ho, hc]
  rfl

/-- Witness of C11: the config map of the examples under the four flag combinations. -/
theorem buildFZFInputLines_no_colour_witness :
    (buildFZFInputLines (sampleEnv []) sampleObjects false false)[0]?
        = some "0\tConfigMap cm1".toList
      ∧ (buildFZFInputLines (sampleEnv []) sampleObjects true false)[0]?
        = some "0\tv1.ConfigMap cm1".toList
      ∧ (buildFZFInputLines (sampleEnv []) sampleObjects false true)[0]?
        = some "0\tConfigMap ns.cm1".toList
      ∧ (buildFZFInputLines (sampleEnv []) sampleObjects true true)[0]?
        = some "0\tv1.ConfigMap ns.cm1".toList :=
  ⟨((buildFZFInputLines_no_colour (sampleEnv []) (by decide) sampleObjects false false).2
      0 _ rfl).trans (by decide),
    ((buildFZFInputLines_no_colour (sampleEnv []) (by decide) sampleObjects true false).2
      0 _ rfl).trans (by decide),
    ((buildFZFInputLines_no_colour (sampleEnv []) (by decide) sampleObjects false true).2
      0 _ rfl).trans (by decide),
    ((buildFZFInputLines_no_colour (sampleEnv []) (by decide) sampleObjects true true).2
      0 _ rfl).trans (by decide)⟩

/-- C19, at the failing input: the name `a`, newline, `b`, which the decoder returns
for a double-quoted scalar with an escaped newline, is copied into the candidate line
as it is.  The one object gives a candidate line that holds a newline, so the chooser
input has two lines for one object, and the second of them, `b`, has no index column:
when the chooser returns it, `Select` ends with `no selection`. -/
theorem buildFZFInputLines_newline_in_field :
    Parse multilineYAML
        (Except.ok "kind: Pod\nmetadata:\n  name: \"a\\nb\"\n".toList : Except Empty Str)
        = Except.ok [⟨[], "Pod".toList, [], "a\nb".toList,
            "kind: Pod\nmetadata:\n  name: \"a\\nb\"\n".toList⟩]
      ∧ buildFZFInputLines (sampleEnv [])
          [⟨[], "Pod".toList, [], "a\nb".toList,
            "kind: Pod\nmetadata:\n  name: \"a\\nb\"\n".toList⟩] false false
        = ["0\tPod a\nb".toList]
      ∧ '\n' ∈ "0\tPod a\nb".toList
      ∧ Split '\n' (List.intercalate ['\n'] ["0\tPod a\nb".toList] ++ ['\n'])
        = ["0\tPod a".toList, "b".toList, []]
      ∧ Select (sampleEnv "b\n".toList)
          [⟨[], "Pod".toList, [], "a\nb".toList,
            "kind: Pod\nmetadata:\n  name: \"a\\nb\"\n".toList⟩] sampleOptions
        = Except.error SelectError.noSelection := by
  refine ⟨by decide, by decide, by decide, by decide, by decide⟩

/-- C20: colour only wraps.  For two surroundings, one with colour enabled and one with
colour disabled, the same objects and the same flags, there are as many lines in both,
and the line of the object at index `i` is, with colour, the decimal index, a tab, the
green sequence, the kind label, the reset sequence, a space and the name label, and
without colour the same index, kind label and name label without the two sequences. -/
theorem buildFZFInputLines_colour_wraps (envColour envPlain : Env)
    (hcolour : envColour.NO_COLOR = []) (hplain : envPlain.NO_COLOR ≠ [])
    (objs : List Object) (showAPIVersion showNamespace : Bool) :
    (buildFZFInputLines envColour objs showAPIVersion showNamespace).length
        = (buildFZFInputLines envPlain objs showAPIVersion showNamespace).length
      ∧ kindColorPrefix = "\x1b[32m".toList ∧ colorReset = "\x1b[0m".toList
      ∧ ∀ (i : Nat) (o : Object), objs[i]? = some o →
          (buildFZFInputLines envColour objs showAPIVersion showNamespace)[i]?
              = some (decimal i ++ ['\t'] ++ kindColorPrefix ++ kindLabel showAPIVersion o
                  ++ colorReset ++ [' '] ++ nameLabel showNamespace o)
            ∧ (buildFZFInputLines envPlain objs showAPIVersion showNamespace)[i]?
              = some (decimal i ++ ['\t'] ++ kindLabel showAPIVersion o ++ [' ']
                  ++ nameLabel showNamespace o) := by
  refine ⟨?_, by decide, by decide, ?_⟩
  · rw [buildFZFInputLines_length, buildFZFInputLines_length]
  · intro i o ho
    have hc : (envColour.NO_COLOR == []) = true := by
      rw [hcolour]
      rfl
    have hp : (envPlain.NO_COLOR == []) = false := by
      cases h : envPlain.NO_COLOR with
      | nil => exact absurd h hplain
      | cons c cs => rfl
    rw [buildFZFInputLines_getElem?, buildFZFInputLines_getElem?, ho, hc, hp]
    constructor
    · simp [candidateLine]
    · rfl

/-! ## More facts about the splitter -/

theorem HasPrefix_hash_iff (t : Str) : HasPrefix t ['#'] = true ↔ t.head? = some '#' := by
  cases t with
  | nil => simp [HasPrefix, List.isPrefixOf]
  | cons c cs =>
    simp only [HasPrefix, List.isPrefixOf, List.head?_cons, Option.some.injEq,
      Bool.and_true, beq_iff_eq]
    exact eq_comm

theorem TrimRightNewline_getLast? (s : Str) : (TrimRightNewline s).getLast? ≠ some '\n' := by
  intro h
  have hne : TrimRightNewline s ≠ [] := by
    intro h0
    rw [h0] at h
    cases h
  have h1 := List.rdropWhile_last_not (fun c => c == '\n') s hne
  have h2 : (TrimRightNewline s).getLast hne = '\n' := by
    have := List.getLast?_eq_getLast _ hne
    rw [h] at this
    exact (Option.some.inj this).symm
  apply h1
  show ((TrimRightNewline s).getLast hne == '\n') = true
  rw [h2]
  rfl

theorem TrimRightNewline_eq_self (s : Str) (h : s.getLast? ≠ some '\n') :
    TrimRightNewline s = s := by
  unfold TrimRightNewline
  rw [List.rdropWhile_eq_self_iff]
  intro hne hc
  apply h
  rw [List.getLast?_eq_getLast _ hne]
  have : s.getLast hne = '\n' := by simpa using hc
  rw [this]

theorem TrimRightNewline_append_newlines (s : Str) (k : Nat) :
    TrimRightNewline (s ++ List.replicate k '\n') = TrimRightNewline s := by
  induction k with
  | zero => simp
  | succ k ih =>
    unfold TrimRightNewline at ih ⊢
    rw [List.replicate_succ', ← List.append_assoc, List.rdropWhile_concat_pos _ _ _ (by rfl), ih]

theorem splitLoop_no_trailing_newline (lines docs : List Str) (current : Str)
    (hdocs : ∀ d ∈ docs, d.getLast? ≠ some '\n') :
    ∀ d ∈ (splitLoop lines docs current).1, d.getLast? ≠ some '\n' := by
  induction lines generalizing docs current with
  | nil => exact hdocs
  | cons line rest ih =>
    rw [splitLoop]
    split
    · split
      · apply ih
        intro d hd
        rcases List.mem_append.mp hd with hd | hd
        · exact hdocs d hd
        · rw [List.mem_singleton.mp hd]
          exact TrimRightNewline_getLast? current
      · exact ih _ _ hdocs
    · exact ih _ _ hdocs

theorem splitYAMLDocuments_no_trailing_newline (data seg : Str)
    (hseg : seg ∈ splitYAMLDocuments data) : seg.getLast? ≠ some '\n' := by
  have h := splitLoop_no_trailing_newline (Split '\n' data) [] [] (by simp)
  unfold splitYAMLDocuments at hseg
  simp only at hseg
  split at hseg
  · rcases List.mem_append.mp hseg with hseg | hseg
    · exact h seg hseg
    · rw [List.mem_singleton.mp hseg]
      exact TrimRightNewline_getLast? _
  · exact h seg hseg

theorem splitYAMLDocuments_leading_separator (rest : Str) :
    splitYAMLDocuments ("---\n".toList ++ rest) = splitYAMLDocuments rest := by
  have h1 : "---\n".toList ++ rest = separator ++ '\n' :: rest := by
    simp [separator]
  have h2 : Split '\n' separator = [separator] := by decide
  have h3 : TrimSpace separator = separator := by decide
  unfold splitYAMLDocuments
  rw [h1, Split_append_sep, h2, List.singleton_append, splitLoop]
  simp [h3]

theorem intercalate_append_last (sep : Str) (init : List Str) (last tail : Str) :
    List.intercalate sep (init ++ [last]) ++ tail = List.intercalate sep (init ++ [last ++ tail]) := by
  induction init with
  | nil => simp [List.intercalate]
  | cons d init ih =>
    obtain ⟨y, ys, hy⟩ : ∃ y ys, init ++ [last] = y :: ys := by
      cases h : init ++ [last] with
      | nil => simp at h
      | cons y ys => exact ⟨y, ys, rfl⟩
    obtain ⟨z, zs, hz⟩ : ∃ z zs, init ++ [last ++ tail] = z :: zs := by
      cases h : init ++ [last ++ tail] with
      | nil => simp at h
      | cons z zs => exact ⟨z, zs, rfl⟩
    rw [List.cons_append, List.cons_append, hy, intercalate_cons_cons, ← hy, hz,
      intercalate_cons_cons, ← hz, ← ih]
    simp

theorem noSeparatorLine_append_newlines (s : Str) (k : Nat) (h : noSeparatorLine s) :
    noSeparatorLine (s ++ List.replicate k '\n') := by
  refine (linesAll_append_right (fun t => t ≠ separator) (by decide) s _ ?_).mpr h
  intro c hc
  rw [List.eq_of_mem_replicate hc]
  decide

/-- A stream of documents that do not end in a newline, with trailing newlines after
the last one: the documents come back as they are. -/
theorem splitYAMLDocuments_verbatim (init : List Str) (last : Str) (k : Nat)
    (hinit : ∀ d ∈ init, d.getLast? ≠ some '\n' ∧ noSeparatorLine d)
    (hlast : last ≠ [] ∧ last.getLast? ≠ some '\n' ∧ noSeparatorLine last) :
    splitYAMLDocuments
        (List.intercalate "\n---\n".toList (init ++ [last]) ++ List.replicate k '\n')
      = init ++ [last] := by
  rw [intercalate_append_last,
    splitYAMLDocuments_stream init _ (fun d hd => (hinit d hd).2)
      (noSeparatorLine_append_newlines last k hlast.2.2) (by simp [hlast.1]),
    TrimRightNewline_append_newlines, TrimRightNewline_eq_self last hlast.2.1]
  congr 1
  have : ∀ l : List Str, (∀ d ∈ l, d.getLast? ≠ some '\n') →
      l.map (fun d => TrimRightNewline (d ++ ['\n'])) = l := by
    intro l hl
    induction l with
    | nil => rfl
    | cons d l ih =>
      rw [List.map_cons, ih (fun x hx => hl x (List.mem_cons_of_mem _ hx))]
      have h1 := TrimRightNewline_append_newlines d 1
      rw [show List.replicate 1 '\n' = ['\n'] from rfl] at h1
      rw [h1, TrimRightNewline_eq_self d (hl d (List.mem_cons_self _ _))]
  exact this init (fun d hd => (hinit d hd).1)

/-! ## The splitter in terms of the groups of lines -/

theorem lineGroups_ne_nil (lines : List Str) : lineGroups lines ≠ [] := by
  cases lines with
  | nil => simp [lineGroups]
  | cons l rest =>
    unfold lineGroups
    split
    · simp
    · split <;> simp

/-- The lines hold no separator line and form one group, or they are a first group
without separator line, a separator line and the remaining lines. -/
theorem lineGroups_cases (lines : List Str) :
    ((∀ l ∈ lines, TrimSpace l ≠ separator) ∧ lineGroups lines = [lines])
      ∨ ∃ (g : List Str) (s : Str) (rest : List Str),
          lines = g ++ s :: rest ∧ (∀ l ∈ g, TrimSpace l ≠ separator)
            ∧ TrimSpace s = separator ∧ lineGroups lines = g :: lineGroups rest := by
  induction lines with
  | nil => exact Or.inl ⟨by simp, rfl⟩
  | cons l rest ih =>
    by_cases hl : TrimSpace l = separator
    · refine Or.inr ⟨[], l, rest, rfl, by simp, hl, ?_⟩
      rw [lineGroups]
      simp [hl]
    · rcases ih with ⟨hall, hgroups⟩ | ⟨g, s, rest1, hlines, hg, hs, hgroups⟩
      · refine Or.inl ⟨?_, ?_⟩
        · intro x hx
          rcases List.mem_cons.mp hx with hx | hx
          · rw [hx]
            exact hl
          · exact hall x hx
        · rw [lineGroups]
          simp [hl, hgroups]
      · refine Or.inr ⟨l :: g, s, rest1, by rw [hlines]; rfl, ?_, hs, ?_⟩
        · intro x hx
          rcases List.mem_cons.mp hx with hx | hx
          · rw [hx]
            exact hl
          · exact hg x hx
        · rw [lineGroups]
          simp [hl, hgroups]

theorem splitLoop_separator_empty (line : Str) (rest docs : List Str)
    (hline : TrimSpace line = separator) :
    splitLoop (line :: rest) docs [] = splitLoop rest docs [] := by
  rw [splitLoop]
  simp [hline]

/-- The segments of the splitter's loop, once the final buffer is emitted, are the
segments of the groups of the lines. -/
theorem splitLoop_groupSegments (n : Nat) :
    ∀ (lines docs : List Str), lines.length ≤ n →
      (if (splitLoop lines docs []).2.length > 0
        then (splitLoop lines docs []).1 ++ [TrimRightNewline (splitLoop lines docs []).2]
        else (splitLoop lines docs []).1)
        = docs ++ groupSegments (lineGroups lines) := by
  induction n with
  | zero =>
    intro lines docs hlen
    have : lines = [] := List.length_eq_zero.mp (by omega)
    subst this
    simp [splitLoop, lineGroups, groupSegments, finalText, List.intercalate]
  | succ n ih =>
    intro lines docs hlen
    rcases lineGroups_cases lines with ⟨hall, hgroups⟩ | ⟨g, s, rest, hlines, hg, hs, hgroups⟩
    · rw [splitLoop_lines_end lines docs [] hall, hgroups]
      simp only [List.nil_append, groupSegments, finalText]
      by_cases h0 : List.intercalate ['\n'] lines = []
      · simp [h0]
      · have hpos : (List.intercalate ['\n'] lines).length > 0 := List.length_pos.mpr h0
        simp [h0, hpos]
    · obtain ⟨g1, gs, hrest⟩ : ∃ g1 gs, lineGroups rest = g1 :: gs := by
        cases h : lineGroups rest with
        | nil => exact absurd h (lineGroups_ne_nil rest)
        | cons g1 gs => exact ⟨g1, gs, rfl⟩
      have hshort : rest.length ≤ n := by
        rw [hlines] at hlen
        simp only [List.length_append, List.length_cons] at hlen
        omega
      have hih := ih rest
      rw [hrest] at hih
      rw [hgroups, hrest, hlines, splitLoop_lines_mid g (s :: rest) docs [] hg (by simp),
        List.nil_append]
      simp only [groupSegments]
      by_cases h0 : closedText g = []
      · have h0b : (g.map (fun l => l ++ ['\n'])).flatten = [] := h0
        rw [h0b, splitLoop_separator_empty s rest docs hs, hih docs hshort, if_pos h0,
          List.nil_append]
      · have h0b : (g.map (fun l => l ++ ['\n'])).flatten ≠ [] := h0
        rw [splitLoop_separator s rest docs _ hs h0b, hih _ hshort, if_neg h0,
          List.append_assoc]
        rfl

/-- The segments of an input are the segments of the groups of its lines. -/
theorem splitYAMLDocuments_eq_groupSegments (data : Str) :
    splitYAMLDocuments data = groupSegments (lineGroups (Split '\n' data)) := by
  have h := splitLoop_groupSegments (Split '\n' data).length (Split '\n' data) [] (le_refl _)
  rw [List.nil_append] at h
  exact h

/-! ## The classifier and the splitter: claims C15 to C18 -/

/-- C15: `isCommentOnly` is true exactly when every line of the document, trimmed, is
empty or starts with `#`.  So a blank line put between two lines does not change the
verdict, and one line that is neither blank nor a comment makes the verdict false,
whatever the other lines are. -/
theorem isCommentOnly_iff_every_line (doc : Str) :
    (isCommentOnly doc = true ↔
        ∀ l ∈ Split '\n' doc, TrimSpace l = [] ∨ (TrimSpace l).head? = some '#')
      ∧ (∀ (before after blank : Str), doc = before ++ '\n' :: after →
          (∀ c ∈ blank, isSpace c = true) →
          isCommentOnly (before ++ '\n' :: (blank ++ '\n' :: after)) = isCommentOnly doc)
      ∧ (∀ l ∈ Split '\n' doc, TrimSpace l ≠ [] → (TrimSpace l).head? ≠ some '#' →
          isCommentOnly doc = false) := by
  have hiff : ∀ d : Str, isCommentOnly d = true ↔
      ∀ l ∈ Split '\n' d, TrimSpace l = [] ∨ (TrimSpace l).head? = some '#' := by
    intro d
    rw [isCommentOnly_iff]
    unfold linesAll
    constructor
    · intro h l hl
      rcases h l hl with h1 | h1
      · exact Or.inl h1
      · exact Or.inr ((HasPrefix_hash_iff _).mp h1)
    · intro h l hl
      rcases h l hl with h1 | h1
      · exact Or.inl h1
      · exact Or.inr ((HasPrefix_hash_iff _).mpr h1)
  refine ⟨hiff doc, ?_, ?_⟩
  · intro before after blank hdoc hblank
    have key : isCommentOnly (before ++ '\n' :: (blank ++ '\n' :: after)) = true
        ↔ isCommentOnly doc = true := by
      rw [hdoc, isCommentOnly_iff, isCommentOnly_iff]
      have h1 := linesAll_append_left (fun t : Str => t = [] ∨ HasPrefix t ['#'] = true)
        (Or.inl rfl) blank ('\n' :: after) hblank
      have h2 := linesAll_space_cons (fun t : Str => t = [] ∨ HasPrefix t ['#'] = true)
        (Or.inl rfl) '\n' after (by decide)
      unfold linesAll at h1 h2 ⊢
      rw [Split_append_sep '\n' before (blank ++ '\n' :: after),
        Split_append_sep '\n' before after]
      constructor
      · intro h l hl
        rcases List.mem_append.mp hl with hl | hl
        · exact h l (List.mem_append_left _ hl)
        · exact h2.mp (h1.mp (fun x hx => h x (List.mem_append_right _ hx))) l hl
      · intro h l hl
        rcases List.mem_append.mp hl with hl | hl
        · exact h l (List.mem_append_left _ hl)
        · exact h1.mpr (h2.mpr (fun x hx => h x (List.mem_append_right _ hx))) l hl
    exact Bool.eq_iff_iff.mpr key
  · intro l hl hne hhash
    cases hc : isCommentOnly doc with
    | false => rfl
    | true =>
      rcases (hiff doc).mp hc l hl with h1 | h1
      · exact absurd h1 hne
      · exact absurd h1 hhash

/-- Witness of C15: a comment line before a line of content. -/
theorem isCommentOnly_iff_every_line_witness :
    isCommentOnly "# c1\nkind: Pod".toList = false :=
  (isCommentOnly_iff_every_line "# c1\nkind: Pod".toList).2.2 "kind: Pod".toList
    (by decide) (by decide) (by decide)

/-- C16: no segment returned by `splitYAMLDocuments` has a line whose trimmed content
is `---`, and none ends with a newline. -/
theorem splitYAMLDocuments_no_separator_no_newline (data seg : Str)
    (hseg : seg ∈ splitYAMLDocuments data) :
    (∀ l ∈ Split '\n' seg, TrimSpace l ≠ "---".toList)
      ∧ seg.getLast? ≠ some '\n' ∧ HasSuffix seg ['\n'] = false := by
  have h2 := splitYAMLDocuments_no_trailing_newline data seg hseg
  refine ⟨splitYAMLDocuments_noSeparatorLine data seg hseg, h2, ?_⟩
  cases hs : HasSuffix seg ['\n'] with
  | false => rfl
  | true =>
    exfalso
    unfold HasSuffix at hs
    rw [List.isSuffixOf_iff_suffix] at hs
    obtain ⟨t, ht⟩ := hs
    apply h2
    rw [← ht]
    simp

/-- Witness of C16: the first segment of a stream with a separator line and trailing
newlines. -/
theorem splitYAMLDocuments_no_separator_no_newline_witness :
    (∀ l ∈ Split '\n' "a: 1\nb: 2".toList, TrimSpace l ≠ "---".toList)
      ∧ "a: 1\nb: 2".toList.getLast? ≠ some '\n'
      ∧ HasSuffix "a: 1\nb: 2".toList ['\n'] = false :=
  splitYAMLDocuments_no_separator_no_newline "a: 1\nb: 2\n\n  ---  \nc: 3\n\n".toList
    "a: 1\nb: 2".toList (by decide)

/-- C17: for a non-empty list of documents, each not empty, not ending in a newline and
without a separator line, the splitter returns exactly the documents from the stream
that joins them by `---` lines, also when the stream begins with a `---` line, ends
with trailing newlines, or both. -/
theorem splitYAMLDocuments_round_trip (ds : List Str) (hne : ds ≠ [])
    (hds : ∀ d ∈ ds, d ≠ [] ∧ d.getLast? ≠ some '\n'
      ∧ ∀ l ∈ Split '\n' d, TrimSpace l ≠ "---".toList)
    (k : Nat) :
    splitYAMLDocuments (List.intercalate "\n---\n".toList ds) = ds
      ∧ splitYAMLDocuments ("---\n".toList ++ List.intercalate "\n---\n".toList ds) = ds
      ∧ splitYAMLDocuments
          (List.intercalate "\n---\n".toList ds ++ List.replicate k '\n') = ds
      ∧ splitYAMLDocuments
          ("---\n".toList ++ (List.intercalate "\n---\n".toList ds ++ List.replicate k '\n'))
        = ds := by
  rcases List.eq_nil_or_concat ds with hnil | ⟨init, last, hcat⟩
  · exact absurd hnil hne
  · rw [List.concat_eq_append] at hcat
    subst hcat
    have hinit : ∀ d ∈ init, d.getLast? ≠ some '\n' ∧ noSeparatorLine d :=
      fun d hd => ⟨(hds d (List.mem_append_left _ hd)).2.1,
        (hds d (List.mem_append_left _ hd)).2.2⟩
    have hlast : last ≠ [] ∧ last.getLast? ≠ some '\n' ∧ noSeparatorLine last :=
      hds last (List.mem_append_right _ (List.mem_singleton.mpr rfl))
    have h0 := splitYAMLDocuments_verbatim init last 0 hinit hlast
    simp only [List.replicate_zero, List.append_nil] at h0
    have hk := splitYAMLDocuments_verbatim init last k hinit hlast
    refine ⟨h0, ?_, hk, ?_⟩
    · rw [splitYAMLDocuments_leading_separator, h0]
    · rw [splitYAMLDocuments_leading_separator, hk]

/-- Witness of C17: two documents, a leading separator line and two trailing
newlines. -/
theorem splitYAMLDocuments_round_trip_witness :
    splitYAMLDocuments "---\na: 1\nb: 2\n---\n  c: 3\n\n".toList
      = ["a: 1\nb: 2".toList, "  c: 3".toList] :=
  (splitYAMLDocuments_round_trip ["a: 1\nb: 2".toList, "  c: 3".toList] (by decide)
    (by decide) 2).2.2.2

/-- C18, as stated, fails: the input of one newline has no separator line and gives
one empty segment; a stream that begins with a blank line before its first separator
line gives an empty first segment; and two separator lines with nothing between them
give no empty segment. -/
theorem splitYAMLDocuments_empty_segment_without_separator :
    splitYAMLDocuments "\n".toList = [[]]
      ∧ (∀ l ∈ Split '\n' "\n".toList, TrimSpace l ≠ "---".toList)
      ∧ splitYAMLDocuments "\n---\nkind: Pod\n".toList = [[], "kind: Pod".toList]
      ∧ splitYAMLDocuments "a: 1\n---\n---\nb: 2\n".toList = ["a: 1".toList, "b: 2".toList]
      ∧ ¬ (∀ data : Str, (∀ l ∈ Split '\n' data, TrimSpace l ≠ "---".toList) →
            [] ∉ splitYAMLDocuments data) := by
  refine ⟨by decide, by decide, by decide, by decide, ?_⟩
  intro h
  exact h "\n".toList (by decide) (by decide)

/-- Witness of C20: the config map of the examples with and without colour. -/
theorem buildFZFInputLines_colour_wraps_witness :
    (buildFZFInputLines sampleColourEnv sampleObjects true false)[0]?
        = some "0\t\x1b[32mv1.ConfigMap\x1b[0m cm1".toList
      ∧ (buildFZFInputLines (sampleEnv []) sampleObjects true false)[0]?
        = some "0\tv1.ConfigMap cm1".toList :=
  ⟨((buildFZFInputLines_colour_wraps sampleColourEnv (sampleEnv []) rfl (by decide)
      sampleObjects true false).2.2.2 0 _ rfl).1.trans (by decide),
    ((buildFZFInputLines_colour_wraps sampleColourEnv (sampleEnv []) rfl (by decide)
      sampleObjects true false).2.2.2 0 _ rfl).2.trans (by decide)⟩

/-! ## Facts about the selection mapper -/

theorem SkipSpace_no_newline (f : Str) (h : '\n' ∉ f) :
    SkipSpace f = some (f.dropWhile isSpace) := by
  induction f with
  | nil => rfl
  | cons c cs ih =>
    have hc : c ≠ '\n' := fun hc => h (by simp [hc])
    have hcs : '\n' ∉ cs := fun hcs => h (List.mem_cons_of_mem _ hcs)
    have hhead : cs.head? ≠ some '\n' := by
      intro hh
      cases cs with
      | nil => cases hh
      | cons d ds =>
        simp only [List.head?_cons, Option.some.injEq] at hh
        exact hcs (by simp [hh])
    rw [SkipSpace]
    by_cases hsp : isSpace c = true
    · simp [hc, hhead, hsp, ih hcs]
    · simp [hc, hhead, hsp]

theorem takeWhile_isDigit_all (ds : Str) : (ds.takeWhile Char.isDigit).all Char.isDigit = true := by
  rw [List.all_eq_true]
  intro c hc
  exact List.mem_takeWhile_imp hc

theorem ParseInt_digits (ds : Str) (hne : ds ≠ []) (hall : ds.all Char.isDigit = true) :
    ParseInt ds = if digitsValue ds < 2 ^ 63 then some (digitsValue ds : Int) else none := by
  obtain ⟨c, cs, rfl⟩ : ∃ c cs, ds = c :: cs := by
    cases ds with
    | nil => exact absurd rfl hne
    | cons c cs => exact ⟨c, cs, rfl⟩
  have hc : c.isDigit = true := by
    rw [List.all_eq_true] at hall
    exact hall c (List.mem_cons_self _ _)
  obtain ⟨_, _, _, _, hplus, hminus⟩ := isDigit_not_space c hc
  unfold ParseInt
  simp only [List.head?_cons, Option.some.injEq, hplus, hminus, or_self, if_false, hall,
    not_true_eq_false, false_and, decide_False]
  simp
  split <;> split <;> first | rfl | (exfalso; omega)

theorem ParseInt_minus (ds : Str) (hne : ds ≠ []) (hall : ds.all Char.isDigit = true) :
    ParseInt ('-' :: ds)
      = if digitsValue ds ≤ 2 ^ 63 then some (- (digitsValue ds : Int)) else none := by
  unfold ParseInt
  simp [hne, hall]
  split <;> split <;> first | rfl | (exfalso; omega)

theorem ParseInt_plus (ds : Str) (hne : ds ≠ []) (hall : ds.all Char.isDigit = true) :
    ParseInt ('+' :: ds)
      = if digitsValue ds < 2 ^ 63 then some (digitsValue ds : Int) else none := by
  unfold ParseInt
  simp [hne, hall]
  split <;> split <;> first | rfl | (exfalso; omega)

/-- On a field without a newline the scan of `%d` gives the decimal integer the field
begins with. -/
theorem Sscanf_d_eq_leadingInteger (f : Str) (h : '\n' ∉ f) :
    Sscanf_d f = leadingInteger f := by
  unfold Sscanf_d leadingInteger
  rw [SkipSpace_no_newline f h]
  simp only []
  generalize f.dropWhile isSpace = s1
  cases s1 with
  | nil => simp
  | cons c cs =>
    by_cases hm : c = '-'
    · subst hm
      by_cases ht : cs.takeWhile Char.isDigit = []
      · simp [ht]
      · simp only [List.head?_cons, Option.some.injEq, or_true, if_true, List.tail_cons, ht,
          if_false, reduceCtorEq]
        have : List.take 1 ('-' :: cs) ++ cs.takeWhile Char.isDigit
            = '-' :: cs.takeWhile Char.isDigit := rfl
        rw [this, ParseInt_minus _ ht (takeWhile_isDigit_all cs)]
    · by_cases hp : c = '+'
      · subst hp
        by_cases ht : cs.takeWhile Char.isDigit = []
        · simp [ht]
        · have hne : ('+' : Char) ≠ '-' := by decide
          simp only [List.head?_cons, Option.some.injEq, true_or, if_true, List.tail_cons, ht,
            if_false, reduceCtorEq, hne]
          have : List.take 1 ('+' :: cs) ++ cs.takeWhile Char.isDigit
              = '+' :: cs.takeWhile Char.isDigit := rfl
          rw [this, ParseInt_plus _ ht (takeWhile_isDigit_all cs)]
      · by_cases ht : (c :: cs).takeWhile Char.isDigit = []
        · simp [hm, hp, ht]
        · simp only [List.head?_cons, Option.some.injEq, hm, hp, or_self, if_false, ht,
            reduceCtorEq, List.nil_append]
          rw [ParseInt_digits _ ht (takeWhile_isDigit_all (c :: cs))]

theorem TrimSpace_eq_nil_iff (l : Str) : TrimSpace l = [] ↔ isBlankLine l = true := by
  unfold TrimSpace isBlankLine
  rw [List.rdropWhile_eq_nil_iff, List.all_eq_true]
  constructor
  · intro h
    have hd : l.dropWhile isSpace = [] := by
      cases hl : l.dropWhile isSpace with
      | nil => rfl
      | cons c cs =>
        exfalso
        have h1 := List.head_dropWhile_not isSpace l (by rw [hl]; simp)
        have h2 := h c (by rw [hl]; simp)
        simp only [hl, List.head_cons] at h1
        rw [h1] at h2
        cases h2
    exact List.dropWhile_eq_nil_iff.mp hd
  · intro h x hx
    exact h x ((List.dropWhile_suffix isSpace).subset hx)

theorem mem_of_mem_Split (sep : Char) (s x : Str) (c : Char) (hx : x ∈ Split sep s)
    (hc : c ∈ x) : c ∈ s := by
  induction s generalizing x with
  | nil =>
    simp [Split] at hx
    subst hx
    cases hc
  | cons a s ih =>
    by_cases ha : a = sep
    · subst ha
      rw [Split_cons_sep] at hx
      rcases List.mem_cons.mp hx with hx | hx
      · subst hx
        cases hc
      · exact List.mem_cons_of_mem _ (ih x hx hc)
    · obtain ⟨l0, ls, hl⟩ : ∃ l ls, Split sep s = l :: ls := by
        cases h : Split sep s with
        | nil => exact absurd h (Split_ne_nil sep s)
        | cons l ls => exact ⟨l, ls, rfl⟩
      rw [Split_cons_ne sep a s l0 ls ha hl] at hx
      rcases List.mem_cons.mp hx with hx | hx
      · subst hx
        rcases List.mem_cons.mp hc with hc | hc
        · rw [hc]
          exact List.mem_cons_self _ _
        · exact List.mem_cons_of_mem _ (ih l0 (by rw [hl]; simp) hc)
      · exact List.mem_cons_of_mem _ (ih x (by rw [hl]; exact List.mem_cons_of_mem _ hx) hc)

theorem selectionLoop_eq (ls : List Str) (idxs : List Int) (h : ∀ l ∈ ls, '\n' ∉ l) :
    selectionLoop ls idxs = idxs ++ ls.filterMap lineIndex := by
  induction ls generalizing idxs with
  | nil => simp [selectionLoop]
  | cons l ls ih =>
    have hl : '\n' ∉ l := h l (List.mem_cons_self _ _)
    have hls : ∀ x ∈ ls, '\n' ∉ x := fun x hx => h x (List.mem_cons_of_mem _ hx)
    rw [selectionLoop, List.filterMap_cons]
    by_cases hb : TrimSpace l = []
    · have hb2 : isBlankLine l = true := (TrimSpace_eq_nil_iff l).mp hb
      simp only [hb, if_true, lineIndex, hb2]
      exact ih _ hls
    · have hb2 : ¬ isBlankLine l = true := fun hh => hb ((TrimSpace_eq_nil_iff l).mpr hh)
      simp only [hb, if_false, lineIndex, hb2]
      obtain ⟨f0, fs, hf⟩ : ∃ f0 fs, Split '\t' l = f0 :: fs := by
        cases hs : Split '\t' l with
        | nil => exact absurd hs (Split_ne_nil _ l)
        | cons f0 fs => exact ⟨f0, fs, rfl⟩
      have hf0 : '\n' ∉ f0 := fun hc =>
        hl (mem_of_mem_Split '\t' l f0 '\n' (by rw [hf]; simp) hc)
      simp only [hf]
      rw [Sscanf_d_eq_leadingInteger f0 hf0]
      cases hli : leadingInteger f0 with
      | none =>
        simp only []
        exact ih _ hls
      | some idx =>
        simp only []
        rw [ih _ hls]
        simp

theorem takeWhile_concat_of_neg {α : Type} (p : α → Bool) (l : List α) (x : α)
    (hx : p x = false) : (l ++ [x]).takeWhile p = l.takeWhile p := by
  induction l with
  | nil => simp [List.takeWhile, hx]
  | cons a l ih =>
    simp only [List.cons_append, List.takeWhile_cons]
    split
    · rw [ih]
    · rfl

theorem leadingInteger_concat (f : Str) (ch : Char) (hf : f.dropWhile isSpace ≠ [])
    (hch : ch.isDigit = false) : leadingInteger (f ++ [ch]) = leadingInteger f := by
  have hd : (f ++ [ch]).dropWhile isSpace = f.dropWhile isSpace ++ [ch] := by
    rw [List.dropWhile_append]
    have : (f.dropWhile isSpace).isEmpty = false := by
      cases h : f.dropWhile isSpace with
      | nil => exact absurd h hf
      | cons a b => rfl
    simp [this]
  unfold leadingInteger
  rw [hd]
  obtain ⟨c, cs, hcs⟩ : ∃ c cs, f.dropWhile isSpace = c :: cs := by
    cases h : f.dropWhile isSpace with
    | nil => exact absurd h hf
    | cons c cs => exact ⟨c, cs, rfl⟩
  rw [hcs]
  simp only [List.cons_append, List.head?_cons, List.tail_cons]
  have h1 : (cs ++ [ch]).takeWhile Char.isDigit = cs.takeWhile Char.isDigit :=
    takeWhile_concat_of_neg _ cs ch hch
  have h2 : (c :: (cs ++ [ch])).takeWhile Char.isDigit = (c :: cs).takeWhile Char.isDigit := by
    have := takeWhile_concat_of_neg Char.isDigit (c :: cs) ch hch
    simpa using this
  split
  · rw [h1]
  · rw [h2]

theorem isSpace_not_digit (ch : Char) (h : isSpace ch = true) : ch.isDigit = false := by
  cases hd : ch.isDigit with
  | false => rfl
  | true =>
    have := (isDigit_not_space ch hd).1
    rw [h] at this
    cases this

theorem Split_eq_singleton (sep : Char) (s x : Str) (h : Split sep s = [x]) : x = s := by
  induction s generalizing x with
  | nil =>
    simp [Split] at h
    exact h
  | cons a s ih =>
    by_cases ha : a = sep
    · subst ha
      rw [Split_cons_sep] at h
      have hne := Split_ne_nil a s
      simp only [List.cons.injEq] at h
      exact absurd h.2 hne
    · obtain ⟨l0, ls, hl⟩ : ∃ l ls, Split sep s = l :: ls := by
        cases h : Split sep s with
        | nil => exact absurd h (Split_ne_nil sep s)
        | cons l ls => exact ⟨l, ls, rfl⟩
      rw [Split_cons_ne sep a s l0 ls ha hl] at h
      simp only [List.cons.injEq] at h
      obtain ⟨h1, h2⟩ := h
      rw [h2] at hl
      rw [← h1, ih l0 hl]

/-- White space after a line does not change the index the line gives. -/
theorem lineIndex_concat_space (l : Str) (ch : Char) (hch : isSpace ch = true) :
    lineIndex (l ++ [ch]) = lineIndex l := by
  have hblank : isBlankLine (l ++ [ch]) = isBlankLine l := by
    rw [Bool.eq_iff_iff, ← TrimSpace_eq_nil_iff, ← TrimSpace_eq_nil_iff,
      TrimSpace_concat_space l ch hch]
  unfold lineIndex
  rw [hblank]
  by_cases hb : isBlankLine l = true
  · simp [hb]
  · simp only [hb, if_false]
    by_cases ht : ch = '\t'
    · subst ht
      rw [Split_concat_sep]
      cases hs : Split '\t' l with
      | nil => exact absurd hs (Split_ne_nil _ l)
      | cons f0 fs => rfl
    · obtain ⟨init, last, h1, h2⟩ := Split_concat_ne '\t' ch l ht
      rw [h1, h2]
      cases init with
      | cons i is => rfl
      | nil =>
        simp only [List.nil_append]
        have hlast : last = l := Split_eq_singleton '\t' l last (by simpa using h1)
        rw [hlast]
        apply leadingInteger_concat l ch _ (isSpace_not_digit ch hch)
        intro hd
        apply hb
        unfold isBlankLine
        rw [List.all_eq_true]
        exact List.dropWhile_eq_nil_iff.mp hd

theorem lineIndex_nil : lineIndex [] = none := by
  decide

theorem filterMap_lineIndex_concat_space (s : Str) (ch : Char) (hch : isSpace ch = true) :
    (Split '\n' (s ++ [ch])).filterMap lineIndex = (Split '\n' s).filterMap lineIndex := by
  by_cases hn : ch = '\n'
  · subst hn
    rw [Split_concat_sep, List.filterMap_append]
    simp [lineIndex_nil]
  · obtain ⟨init, last, h1, h2⟩ := Split_concat_ne '\n' ch s hn
    rw [h1, h2, List.filterMap_append, List.filterMap_append]
    simp only [List.filterMap_cons, List.filterMap_nil]
    rw [lineIndex_concat_space last ch hch]

theorem filterMap_lineIndex_append_spaces (s post : Str) (h : ∀ c ∈ post, isSpace c = true) :
    (Split '\n' (s ++ post)).filterMap lineIndex = (Split '\n' s).filterMap lineIndex := by
  induction post using List.reverseRecOn with
  | nil => simp
  | append_singleton post c ih =>
    rw [← List.append_assoc, filterMap_lineIndex_concat_space _ c (h c (by simp))]
    exact ih (fun d hd => h d (by simp [hd]))

/-- The result of `parseSelectionOutput` is made of the indices of the lines of the
output taken without its leading white space. -/
theorem parseSelectionOutput_eq (out : Str) :
    parseSelectionOutput out
      = (Split '\n' (out.dropWhile isSpace)).filterMap lineIndex := by
  unfold parseSelectionOutput
  rw [selectionLoop_eq _ _ (fun l hl => not_mem_of_mem_Split _ _ l hl), List.nil_append]
  have h : out.dropWhile isSpace
      = TrimSpace out ++ (out.dropWhile isSpace).rtakeWhile isSpace := by
    unfold TrimSpace
    rw [rdropWhile_append_rtakeWhile]
  conv_rhs => rw [h]
  rw [filterMap_lineIndex_append_spaces _ _ (fun c hc => List.mem_rtakeWhile_imp hc)]

theorem leadingInteger_decimal (idx : Nat) (h : idx < 2 ^ 63) :
    leadingInteger (decimal idx) = some (idx : Int) := by
  obtain ⟨hne, hall, hval⟩ := decimal_spec idx
  obtain ⟨c, cs, hcs⟩ : ∃ c cs, decimal idx = c :: cs := by
    cases hd : decimal idx with
    | nil => exact absurd hd hne
    | cons c cs => exact ⟨c, cs, rfl⟩
  have hc : c.isDigit = true := hall c (by rw [hcs]; simp)
  obtain ⟨hsp, _, _, _, hplus, hminus⟩ := isDigit_not_space c hc
  have htake : (c :: cs).takeWhile Char.isDigit = c :: cs := by
    rw [List.takeWhile_eq_self_iff]
    intro x hx
    exact hall x (by rw [hcs]; exact hx)
  unfold leadingInteger
  rw [hcs] at hval ⊢
  simp only [List.dropWhile_cons, hsp, Bool.false_eq_true, if_false, List.head?_cons,
    Option.some.injEq, hplus, hminus, or_self, htake, reduceCtorEq, hval, h, if_true]

theorem ChooserLine.render_newline_free (l : ChooserLine) (h : l.wellFormed) :
    '\n' ∉ l.render := by
  cases l with
  | blank spaces => exact h.2
  | entry idx text =>
    intro hmem
    unfold ChooserLine.render at hmem
    rcases List.mem_append.mp hmem with hm | hm
    · exact (isDigit_not_space _ ((decimal_spec idx).2.1 _ hm)).2.1 rfl
    · rcases List.mem_cons.mp hm with hm | hm
      · revert hm
        decide
      · exact h.2 hm

/-- A line of the protocol gives its index, and a blank line gives none. -/
theorem lineIndex_render (l : ChooserLine) (h : l.wellFormed) :
    lineIndex l.render = l.index? := by
  cases l with
  | blank spaces =>
    have hb : isBlankLine spaces = true := by
      unfold isBlankLine
      rw [List.all_eq_true]
      exact h.1
    simp [lineIndex, ChooserLine.render, ChooserLine.index?, hb]
  | entry idx text =>
    obtain ⟨hne, hall, _⟩ := decimal_spec idx
    have hnb : ¬ isBlankLine (decimal idx ++ '\t' :: text) = true := by
      intro hb
      unfold isBlankLine at hb
      rw [List.all_eq_true] at hb
      obtain ⟨c, cs, hcs⟩ : ∃ c cs, decimal idx = c :: cs := by
        cases hd : decimal idx with
        | nil => exact absurd hd hne
        | cons c cs => exact ⟨c, cs, rfl⟩
      have hc : c.isDigit = true := hall c (by rw [hcs]; simp)
      have := hb c (by rw [hcs]; simp)
      rw [(isDigit_not_space c hc).1] at this
      cases this
    have htab : '\t' ∉ decimal idx := by
      intro hm
      exact (isDigit_not_space _ (hall _ hm)).2.2.1 rfl
    unfold lineIndex ChooserLine.render ChooserLine.index?
    simp only [hnb, if_false]
    rw [Split_append_sep, Split_of_not_mem _ _ htab]
    exact leadingInteger_decimal idx h.1

theorem Split_chooserOutput (ls : List Str) (h : ∀ l ∈ ls, '\n' ∉ l) :
    Split '\n' (chooserOutput ls) = ls ++ [[]] := by
  induction ls with
  | nil => rfl
  | cons l ls ih =>
    have hl := h l (List.mem_cons_self _ _)
    have e : chooserOutput (l :: ls) = l ++ '\n' :: chooserOutput ls := by
      simp [chooserOutput]
    rw [e, Split_append_sep, Split_of_not_mem _ _ hl,
      ih (fun x hx => h x (List.mem_cons_of_mem _ hx))]
    rfl

theorem dropWhile_append_of_all {α : Type} (p : α → Bool) (pre s : List α)
    (h : ∀ c ∈ pre, p c = true) : (pre ++ s).dropWhile p = s.dropWhile p := by
  induction pre with
  | nil => rfl
  | cons c pre ih =>
    rw [List.cons_append, List.dropWhile_cons_of_pos (h c (List.mem_cons_self _ _))]
    exact ih (fun d hd => h d (List.mem_cons_of_mem _ hd))

/-- On an output made of lines of the protocol, each ended by a newline,
`parseSelectionOutput` returns the indices of the entries, in order. -/
theorem parseSelectionOutput_chooserLines (lines : List ChooserLine)
    (h : ∀ l ∈ lines, l.wellFormed) :
    parseSelectionOutput (chooserOutput (lines.map ChooserLine.render))
      = lines.filterMap ChooserLine.index? := by
  rw [parseSelectionOutput_eq]
  induction lines with
  | nil => decide
  | cons l rest ih =>
    have hrest : ∀ x ∈ rest, x.wellFormed := fun x hx => h x (List.mem_cons_of_mem _ hx)
    have hl : l.wellFormed := h l (List.mem_cons_self _ _)
    cases l with
    | blank spaces =>
      have e : chooserOutput ((ChooserLine.blank spaces :: rest).map ChooserLine.render)
          = (spaces ++ ['\n']) ++ chooserOutput (rest.map ChooserLine.render) := by
        simp [chooserOutput, ChooserLine.render]
      rw [e, dropWhile_append_of_all isSpace _ _ (by
        intro c hc
        rcases List.mem_append.mp hc with hc | hc
        · exact hl.1 c hc
        · rw [List.mem_singleton.mp hc]
          decide), ih hrest]
      rfl
    | entry idx text =>
      obtain ⟨hne, hall, _⟩ := decimal_spec idx
      have hfree : ∀ x ∈ (ChooserLine.entry idx text :: rest).map ChooserLine.render,
          '\n' ∉ x := by
        intro x hx
        rw [List.mem_map] at hx
        obtain ⟨y, hy, rfl⟩ := hx
        exact ChooserLine.render_newline_free y (h y hy)
      have hdrop : (chooserOutput ((ChooserLine.entry idx text :: rest).map ChooserLine.render)).dropWhile
          isSpace = chooserOutput ((ChooserLine.entry idx text :: rest).map ChooserLine.render) := by
        obtain ⟨c, cs, hcs⟩ : ∃ c cs, decimal idx = c :: cs := by
          cases hd : decimal idx with
          | nil => exact absurd hd hne
          | cons c cs => exact ⟨c, cs, rfl⟩
        have hc : c.isDigit = true := hall c (by rw [hcs]; simp)
        have e : chooserOutput ((ChooserLine.entry idx text :: rest).map ChooserLine.render)
            = c :: (cs ++ '\t' :: text ++ ['\n'] ++ chooserOutput (rest.map ChooserLine.render)) := by
          simp [chooserOutput, ChooserLine.render, hcs]
        rw [e, List.dropWhile_cons_of_neg (by rw [(isDigit_not_space c hc).1]; simp)]
      have e2 : List.filterMap lineIndex [[]] = [] := by
        rw [List.filterMap_cons, lineIndex_nil]
        rfl
      rw [hdrop, Split_chooserOutput _ hfree, List.filterMap_append, List.filterMap_map, e2,
        List.append_nil]
      apply List.filterMap_congr
      intro x hx
      exact lineIndex_render x (h x hx)

theorem parseSelectionOutput_concat_newline (out : Str) :
    parseSelectionOutput (out ++ ['\n']) = parseSelectionOutput out := by
  unfold parseSelectionOutput
  rw [TrimSpace_concat_newline]

theorem chooserOutput_eq_intercalate (ls : List Str) (hne : ls ≠ []) :
    chooserOutput ls = List.intercalate ['\n'] ls ++ ['\n'] := by
  induction ls with
  | nil => exact absurd rfl hne
  | cons l ls ih =>
    cases ls with
    | nil => simp [chooserOutput, List.intercalate]
    | cons l1 ls =>
      have e : chooserOutput (l :: l1 :: ls) = l ++ ['\n'] ++ chooserOutput (l1 :: ls) := by
        simp [chooserOutput]
      rw [e, ih (by simp), intercalate_cons_cons]
      simp

theorem map_getD_range {α : Type} (l : List α) (d : α) :
    (List.range l.length).map (fun p => l.getD p d) = l := by
  apply List.ext_getElem?
  intro i
  rw [List.getElem?_map]
  by_cases hi : i < l.length
  · rw [List.getElem?_range hi]
    simp [List.getD_eq_getElem?_getD, List.getElem?_eq_getElem hi]
  · have h1 : (List.range l.length)[i]? = none := by
      rw [List.getElem?_eq_none]
      simp
      omega
    rw [h1, List.getElem?_eq_none (by omega)]
    rfl

theorem positionLine_spec (env : Env) (objs : List Object) (showAPI showNS : Bool)
    (hfields : ∀ o ∈ objs, fieldsNewlineFree o) (hlen : objs.length < 2 ^ 63)
    (p : Nat) (hp : p < objs.length) :
    (positionLine (env.NO_COLOR == []) showAPI showNS objs p).render
        = (buildFZFInputLines env objs showAPI showNS).getD p []
      ∧ (positionLine (env.NO_COLOR == []) showAPI showNS objs p).wellFormed
      ∧ (positionLine (env.NO_COLOR == []) showAPI showNS objs p).index? = some (Int.ofNat p) := by
  have ho : objs[p]? = some objs[p] := List.getElem?_eq_getElem hp
  have hline := buildFZFInputLines_getElem? env objs showAPI showNS p
  rw [ho] at hline
  have hfree := candidateLine_newline_free (env.NO_COLOR == []) showAPI showNS p objs[p]
    (hfields _ (List.getElem_mem hp))
  have hrender : (positionLine (env.NO_COLOR == []) showAPI showNS objs p).render
      = candidateLine (env.NO_COLOR == []) showAPI showNS p objs[p] := by
    unfold positionLine
    rw [ho]
    simp [ChooserLine.render, candidateLine]
  refine ⟨?_, ?_, ?_⟩
  · rw [hrender, List.getD_eq_getElem?_getD, hline]
    rfl
  · have hfree2 : '\n' ∉ (positionLine (env.NO_COLOR == []) showAPI showNS objs p).render := by
      rw [hrender]
      exact hfree
    unfold positionLine at hfree2 ⊢
    rw [ho] at hfree2 ⊢
    refine ⟨by omega, ?_⟩
    intro hm
    apply hfree2
    unfold ChooserLine.render
    exact List.mem_append_right _ (List.mem_cons_of_mem _ hm)
  · unfold positionLine
    rw [ho]
    rfl

/-! ## The selection mapper: claims C12 to C14 -/

/-- C12: for every object list whose four fields hold no newline (and whose length is in
the range of Go's `int`), both display flags, colour on or off, and every list of
positions into the candidate lines, in any order and with repeats,
`parseSelectionOutput` applied to those lines, each ended by a newline, returns exactly
the positions; feeding back all the lines returns `0, 1, ..., len(objs) - 1`. -/
theorem parseSelectionOutput_index_round_trip (env : Env) (objs : List Object)
    (showAPIVersion showNamespace : Bool)
    (hfields : ∀ o ∈ objs, fieldsNewlineFree o) (hlen : objs.length < 2 ^ 63)
    (positions : List Nat) (hpos : ∀ p ∈ positions, p < objs.length) :
    parseSelectionOutput (chooserOutput (positions.map
          (fun p => (buildFZFInputLines env objs showAPIVersion showNamespace).getD p [])))
        = positions.map Int.ofNat
      ∧ parseSelectionOutput
          (chooserOutput (buildFZFInputLines env objs showAPIVersion showNamespace))
        = (List.range objs.length).map Int.ofNat := by
  have key : ∀ ps : List Nat, (∀ p ∈ ps, p < objs.length) →
      parseSelectionOutput (chooserOutput (ps.map
          (fun p => (buildFZFInputLines env objs showAPIVersion showNamespace).getD p [])))
        = ps.map Int.ofNat := by
    intro ps hps
    have h1 : ps.map (fun p => (buildFZFInputLines env objs showAPIVersion showNamespace).getD p [])
        = (ps.map (positionLine (env.NO_COLOR == []) showAPIVersion showNamespace objs)).map
            ChooserLine.render := by
      rw [List.map_map]
      apply List.map_congr_left
      intro p hp
      exact (positionLine_spec env objs _ _ hfields hlen p (hps p hp)).1.symm
    rw [h1, parseSelectionOutput_chooserLines]
    · rw [List.filterMap_map]
      have : ∀ l : List Nat, (∀ p ∈ l, p < objs.length) →
          l.filterMap (ChooserLine.index? ∘
            positionLine (env.NO_COLOR == []) showAPIVersion showNamespace objs)
          = l.map Int.ofNat := by
        intro l hl
        induction l with
        | nil => rfl
        | cons p l ih =>
          rw [List.filterMap_cons]
          simp only [Function.comp_apply,
            (positionLine_spec env objs _ _ hfields hlen p (hl p (List.mem_cons_self _ _))).2.2]
          rw [ih (fun q hq => hl q (List.mem_cons_of_mem _ hq))]
          rfl
      exact this ps hps
    · intro l hl
      rw [List.mem_map] at hl
      obtain ⟨p, hp, rfl⟩ := hl
      exact (positionLine_spec env objs _ _ hfields hlen p (hps p hp)).2.1
  refine ⟨key positions hpos, ?_⟩
  have hall : (List.range objs.length).map
      (fun p => (buildFZFInputLines env objs showAPIVersion showNamespace).getD p [])
      = buildFZFInputLines env objs showAPIVersion showNamespace := by
    have h := map_getD_range (buildFZFInputLines env objs showAPIVersion showNamespace) []
    rw [buildFZFInputLines_length] at h
    exact h
  rw [← key (List.range objs.length) (fun p hp => List.mem_range.mp hp), hall]

/-- Witness of C12: the second line and then the first, with colour enabled. -/
theorem parseSelectionOutput_index_round_trip_witness :
    parseSelectionOutput (chooserOutput ([1, 0].map
          (fun p => (buildFZFInputLines sampleColourEnv sampleObjects true true).getD p [])))
        = [1, 0]
      ∧ parseSelectionOutput
          (chooserOutput (buildFZFInputLines sampleColourEnv sampleObjects true true))
        = [0, 1] :=
  ⟨(parseSelectionOutput_index_round_trip sampleColourEnv sampleObjects true true
      (by decide) (by decide) [1, 0] (by decide)).1,
    (parseSelectionOutput_index_round_trip sampleColourEnv sampleObjects true true
      (by decide) (by decide) [1, 0] (by decide)).2⟩

/-- C13: for every sequence of output lines, each blank (white space only) or a decimal
index below `2 ^ 63`, a tab and a text without newline, `parseSelectionOutput` returns
the indices of the lines that are not blank, in the order of the output and with
repeats kept, whether each line is ended by a newline or the lines are joined by
newlines. -/
theorem parseSelectionOutput_well_formed (lines : List ChooserLine)
    (hlines : ∀ l ∈ lines, l.wellFormed) :
    parseSelectionOutput (chooserOutput (lines.map ChooserLine.render))
        = lines.filterMap ChooserLine.index?
      ∧ parseSelectionOutput (List.intercalate ['\n'] (lines.map ChooserLine.render))
        = lines.filterMap ChooserLine.index? := by
  have h1 := parseSelectionOutput_chooserLines lines hlines
  refine ⟨h1, ?_⟩
  cases hl : lines with
  | nil => decide
  | cons l rest =>
    rw [← hl, ← h1, chooserOutput_eq_intercalate _ (by rw [hl]; simp),
      parseSelectionOutput_concat_newline]

/-- Witness of C13: the output of Scenario C, and an index that appears twice around a
blank line. -/
theorem parseSelectionOutput_well_formed_witness :
    chooserOutput ([ChooserLine.entry 0 "ConfigMap cm1".toList,
          ChooserLine.entry 1 "Deployment web".toList].map ChooserLine.render)
        = "0\tConfigMap cm1\n1\tDeployment web\n".toList
      ∧ parseSelectionOutput (chooserOutput ([ChooserLine.entry 0 "ConfigMap cm1".toList,
          ChooserLine.entry 1 "Deployment web".toList].map ChooserLine.render)) = [0, 1]
      ∧ parseSelectionOutput (chooserOutput ([ChooserLine.entry 3 "a".toList,
          ChooserLine.blank "  ".toList, ChooserLine.entry 3 "a".toList].map ChooserLine.render))
        = [3, 3] :=
  ⟨by decide,
    (parseSelectionOutput_well_formed [ChooserLine.entry 0 "ConfigMap cm1".toList,
      ChooserLine.entry 1 "Deployment web".toList] (by decide)).1,
    (parseSelectionOutput_well_formed [ChooserLine.entry 3 "a".toList,
      ChooserLine.blank "  ".toList, ChooserLine.entry 3 "a".toList] (by decide)).1⟩

/-- C14, as stated, fails: the output is trimmed as a whole before it is split, so the
line `\t5`, whose first tab-delimited field is empty, gives the index 5; and the scan
stops at the first character that is not a digit, so the field `5x`, which is not a
decimal integer, gives the index 5. -/
theorem parseSelectionOutput_not_per_line :
    parseSelectionOutput "\t5\n".toList = [5]
      ∧ Split '\n' "\t5\n".toList = ["\t5".toList, []]
      ∧ Split '\t' "\t5".toList = [[], "5".toList]
      ∧ Sscanf_d [] = none
      ∧ parseSelectionOutput "5x\tbogus\n".toList = [5]
      ∧ ParseInt "5x".toList = none
      ∧ ¬ (∀ out : Str, parseSelectionOutput out = (Split '\n' out).filterMap lineIndex) := by
  refine ⟨by decide, by decide, by decide, by decide, by decide, by decide, ?_⟩
  intro h
  exact absurd (h "\t5\n".toList) (by decide)

/-- C14, amended: `parseSelectionOutput` is a total function, and its result holds, in
order, one index per line, of the output taken without its leading white space, that
is not blank and whose first tab-delimited field begins, after white space and an
optional sign, with decimal digits in the 64-bit range, and nothing else; a line whose
first field holds no decimal digit gives no index, and `x\tbogus` gives the empty
list. -/
theorem parseSelectionOutput_lines (out : Str) :
    parseSelectionOutput out = (Split '\n' (out.dropWhile isSpace)).filterMap lineIndex
      ∧ (∀ (l field : Str) (rest : List Str), Split '\t' l = field :: rest →
          (∀ c ∈ field, c.isDigit = false) → lineIndex l = none)
      ∧ (∀ l : Str, isBlankLine l = true → lineIndex l = none)
      ∧ parseSelectionOutput "x\tbogus\n".toList = [] := by
  refine ⟨parseSelectionOutput_eq out, ?_, ?_, by decide⟩
  · intro l field rest hsplit hnodigit
    unfold lineIndex
    rw [hsplit]
    split
    · rfl
    · simp only []
      unfold leadingInteger
      have hsuffix : field.dropWhile isSpace <:+ field := List.dropWhile_suffix isSpace
      have htake : ∀ body : Str, (∀ c ∈ body, c.isDigit = false) →
          body.takeWhile Char.isDigit = [] := by
        intro body hbody
        cases body with
        | nil => rfl
        | cons c cs => simp [List.takeWhile, hbody c (List.mem_cons_self _ _)]
      have hbody : ∀ c ∈ (if (field.dropWhile isSpace).head? = some '+'
            ∨ (field.dropWhile isSpace).head? = some '-'
          then (field.dropWhile isSpace).tail else field.dropWhile isSpace), c.isDigit = false := by
        intro c hc
        apply hnodigit c
        apply hsuffix.subset
        split at hc
        · exact List.mem_of_mem_tail hc
        · exact hc
      simp only [htake _ hbody, if_true]
  · intro l hl
    simp [lineIndex, hl]

/-- Witness of C14, amended: a line without a digit in its first field gives nothing. -/
theorem parseSelectionOutput_lines_witness :
    lineIndex "x\tbogus".toList = none :=
  (parseSelectionOutput_lines []).2.1 "x\tbogus".toList "x".toList ["bogus".toList]
    (by decide) (by decide)

/-! ## Empty segments: claim C18 -/

theorem TrimRightNewline_eq_nil_iff (b : Str) :
    TrimRightNewline b = [] ↔ ∀ c ∈ b, c = '\n' := by
  unfold TrimRightNewline
  rw [List.rdropWhile_eq_nil_iff]
  constructor
  · intro h c hc
    simpa using h c hc
  · intro h c hc
    simpa using h c hc

theorem mem_lineGroups (lines g : List Str) (l : Str) (hg : g ∈ lineGroups lines)
    (hl : l ∈ g) : l ∈ lines := by
  induction lines generalizing g with
  | nil =>
    simp [lineGroups] at hg
    subst hg
    cases hl
  | cons x rest ih =>
    obtain ⟨g0, gs, hrest⟩ : ∃ g0 gs, lineGroups rest = g0 :: gs := by
      cases h : lineGroups rest with
      | nil => exact absurd h (lineGroups_ne_nil rest)
      | cons g0 gs => exact ⟨g0, gs, rfl⟩
    rw [lineGroups] at hg
    by_cases hx : TrimSpace x = separator
    · simp only [hx, if_true] at hg
      rcases List.mem_cons.mp hg with hg | hg
      · subst hg
        cases hl
      · exact List.mem_cons_of_mem _ (ih g hg hl)
    · simp only [hx, if_false, hrest] at hg
      rcases List.mem_cons.mp hg with hg | hg
      · subst hg
        rcases List.mem_cons.mp hl with hl | hl
        · rw [hl]
          exact List.mem_cons_self _ _
        · exact List.mem_cons_of_mem _ (ih g0 (by rw [hrest]; simp) hl)
      · exact List.mem_cons_of_mem _ (ih g (by rw [hrest]; exact List.mem_cons_of_mem _ hg) hl)

theorem closedText_eq_nil_iff (g : List Str) : closedText g = [] ↔ g = [] := by
  cases g with
  | nil => simp [closedText]
  | cons l g => simp [closedText]

theorem closedText_all_newlines_iff (g : List Str) (hfree : ∀ l ∈ g, '\n' ∉ l) :
    (∀ c ∈ closedText g, c = '\n') ↔ ∀ l ∈ g, l = [] := by
  constructor
  · intro h l hl
    cases hcs : l with
    | nil => rfl
    | cons c cs =>
      exfalso
      have hc : c ∈ closedText g := by
        unfold closedText
        rw [List.mem_flatten]
        exact ⟨l ++ ['\n'], List.mem_map.mpr ⟨l, hl, rfl⟩, by rw [hcs]; simp⟩
      apply hfree l hl
      rw [hcs, ← h c hc]
      exact List.mem_cons_self _ _
  · intro h c hc
    unfold closedText at hc
    rw [List.mem_flatten] at hc
    obtain ⟨x, hx, hcx⟩ := hc
    rw [List.mem_map] at hx
    obtain ⟨l, hl, rfl⟩ := hx
    rw [h l hl] at hcx
    simpa using hcx

theorem closedText_length_of_empty (g : List Str) (h : ∀ l ∈ g, l = []) :
    (closedText g).length = g.length := by
  induction g with
  | nil => rfl
  | cons l g ih =>
    have hl : l = [] := h l (List.mem_cons_self _ _)
    have e : closedText (l :: g) = l ++ ['\n'] ++ closedText g := by
      simp [closedText]
    rw [e, hl]
    simp [ih (fun x hx => h x (List.mem_cons_of_mem _ hx))]

theorem closedText_eq_finalText (g : List Str) (hne : g ≠ []) :
    closedText g = finalText g ++ ['\n'] :=
  chooserOutput_eq_intercalate g hne

/-- A group that a separator line closes gives an empty segment exactly when it has a
line and all its lines are empty. -/
theorem closed_group_empty_iff (g : List Str) (hfree : ∀ l ∈ g, '\n' ∉ l) :
    (closedText g ≠ [] ∧ TrimRightNewline (closedText g) = [])
      ↔ (1 ≤ g.length ∧ ∀ l ∈ g, l = []) := by
  rw [TrimRightNewline_eq_nil_iff, closedText_all_newlines_iff g hfree, Ne,
    closedText_eq_nil_iff]
  constructor
  · rintro ⟨h1, h2⟩
    exact ⟨List.length_pos.mpr h1, h2⟩
  · rintro ⟨h1, h2⟩
    exact ⟨List.length_pos.mp h1, h2⟩

/-- The final group gives an empty segment exactly when it has two lines or more and
all its lines are empty. -/
theorem final_group_empty_iff (g : List Str) (hfree : ∀ l ∈ g, '\n' ∉ l) :
    (finalText g ≠ [] ∧ TrimRightNewline (finalText g) = [])
      ↔ (2 ≤ g.length ∧ ∀ l ∈ g, l = []) := by
  by_cases hg : g = []
  · subst hg
    simp [finalText, List.intercalate]
  · have hct := closedText_eq_finalText g hg
    have hall : (∀ c ∈ finalText g, c = '\n') ↔ ∀ l ∈ g, l = [] := by
      rw [← closedText_all_newlines_iff g hfree, hct]
      constructor
      · intro h c hc
        rcases List.mem_append.mp hc with hc | hc
        · exact h c hc
        · exact List.mem_singleton.mp hc
      · intro h c hc
        exact h c (List.mem_append_left _ hc)
    rw [TrimRightNewline_eq_nil_iff, hall]
    constructor
    · rintro ⟨h1, h2⟩
      refine ⟨?_, h2⟩
      have hlen := closedText_length_of_empty g h2
      rw [hct, List.length_append] at hlen
      have hpos : (finalText g).length > 0 := List.length_pos.mpr h1
      simp only [List.length_singleton] at hlen
      omega
    · rintro ⟨h1, h2⟩
      refine ⟨?_, h2⟩
      have hlen := closedText_length_of_empty g h2
      rw [hct, List.length_append] at hlen
      simp only [List.length_singleton] at hlen
      intro h0
      rw [h0] at hlen
      simp only [List.length_nil] at hlen
      omega

/-- The segments of groups of lines without newline hold an empty segment exactly when
one group has empty lines only: one line or more when another group follows it, two
lines or more when it is the last group. -/
theorem groupSegments_empty_iff (gs : List (List Str))
    (hfree : ∀ g ∈ gs, ∀ l ∈ g, '\n' ∉ l) :
    [] ∈ groupSegments gs ↔
      ∃ (before : List (List Str)) (g : List Str) (after : List (List Str)),
        gs = before ++ g :: after ∧ (∀ l ∈ g, l = [])
          ∧ (if after = [] then 2 ≤ g.length else 1 ≤ g.length) := by
  induction gs with
  | nil => simp [groupSegments]
  | cons g rest ih =>
    have hg : ∀ l ∈ g, '\n' ∉ l := hfree g (List.mem_cons_self _ _)
    have hrest : ∀ x ∈ rest, ∀ l ∈ x, '\n' ∉ l := fun x hx => hfree x (List.mem_cons_of_mem _ hx)
    cases rest with
    | nil =>
      have hfin := final_group_empty_iff g hg
      have hmem : [] ∈ groupSegments [g]
          ↔ (finalText g ≠ [] ∧ TrimRightNewline (finalText g) = []) := by
        simp only [groupSegments]
        by_cases h0 : finalText g = []
        · simp [h0]
        · simp only [h0, if_false, List.mem_singleton, ne_eq, not_false_eq_true, true_and]
          exact eq_comm
      rw [hmem, hfin]
      constructor
      · rintro ⟨h1, h2⟩
        exact ⟨[], g, [], rfl, h2, by simpa using h1⟩
      · rintro ⟨before, g1, after, heq, h2, h3⟩
        cases before with
        | nil =>
          simp only [List.nil_append, List.cons.injEq] at heq
          obtain ⟨hg1, hafter⟩ := heq
          subst hg1
          rw [← hafter] at h3
          exact ⟨by simpa using h3, h2⟩
        | cons b before =>
          simp only [List.cons_append, List.cons.injEq] at heq
          have := heq.2
          simp at this
    | cons g1 gs =>
      have hcl := closed_group_empty_iff g hg
      have hmem : [] ∈ groupSegments (g :: g1 :: gs)
          ↔ (closedText g ≠ [] ∧ TrimRightNewline (closedText g) = [])
            ∨ [] ∈ groupSegments (g1 :: gs) := by
        simp only [groupSegments, List.mem_append]
        by_cases h0 : closedText g = []
        · simp [h0]
        · simp only [h0, if_false, List.mem_singleton, ne_eq, not_false_eq_true, true_and]
          constructor
          · rintro (h | h)
            · exact Or.inl h.symm
            · exact Or.inr h
          · rintro (h | h)
            · exact Or.inl h.symm
            · exact Or.inr h
      rw [hmem, hcl, ih hrest]
      constructor
      · rintro (⟨h1, h2⟩ | ⟨before, g2, after, heq, h2, h3⟩)
        · exact ⟨[], g, g1 :: gs, rfl, h2, by simpa using h1⟩
        · exact ⟨g :: before, g2, after, by rw [heq]; rfl, h2, h3⟩
      · rintro ⟨before, g2, after, heq, h2, h3⟩
        cases before with
        | nil =>
          simp only [List.nil_append, List.cons.injEq] at heq
          obtain ⟨hg2, hafter⟩ := heq
          subst hg2
          rw [← hafter] at h3
          exact Or.inl ⟨by simpa using h3, h2⟩
        | cons b before =>
          simp only [List.cons_append, List.cons.injEq] at heq
          exact Or.inr ⟨before, g2, after, heq.2, h2, h3⟩

/-- C18, amended: the segments of an input are those of the groups of its lines (the
lines before the first separator line, between two separator lines, and after the
last one), one segment for each group whose gathered text is not empty.  So an empty
segment is returned exactly when one group has empty lines only, one line or more if a
separator line follows the group and two lines or more if it is the final group.  An
input without a separator line gives no segment when it is empty and otherwise one
segment, the input without its trailing newlines, which is empty exactly when the
input is made of newlines only; and the empty input gives no segment. -/
theorem splitYAMLDocuments_empty_segment (data : Str) :
    splitYAMLDocuments [] = []
      ∧ splitYAMLDocuments data = groupSegments (lineGroups (Split '\n' data))
      ∧ ([] ∈ splitYAMLDocuments data ↔
          ∃ (before : List (List Str)) (g : List Str) (after : List (List Str)),
            lineGroups (Split '\n' data) = before ++ g :: after ∧ (∀ l ∈ g, l = [])
              ∧ (if after = [] then 2 ≤ g.length else 1 ≤ g.length))
      ∧ ((∀ l ∈ Split '\n' data, TrimSpace l ≠ "---".toList) →
          splitYAMLDocuments data = (if data = [] then [] else [TrimRightNewline data])
            ∧ ([] ∈ splitYAMLDocuments data ↔ data ≠ [] ∧ ∀ c ∈ data, c = '\n')) := by
  refine ⟨by decide, splitYAMLDocuments_eq_groupSegments data, ?_, ?_⟩
  · rw [splitYAMLDocuments_eq_groupSegments]
    apply groupSegments_empty_iff
    intro g hg l hl
    exact not_mem_of_mem_Split _ data l (mem_lineGroups _ g l hg hl)
  · intro hno
    have heq : splitYAMLDocuments data = (if data = [] then [] else [TrimRightNewline data]) := by
      unfold splitYAMLDocuments
      rw [splitLoop_lines_end _ _ _ hno, intercalate_Split]
      by_cases hd : data = []
      · simp [hd]
      · have hlen : data.length > 0 := List.length_pos.mpr hd
        simp [hd, hlen]
    refine ⟨heq, ?_⟩
    rw [heq, ← TrimRightNewline_eq_nil_iff]
    by_cases hd : data = []
    · simp [hd]
    · simp only [hd, if_false, List.mem_singleton, ne_eq, not_false_eq_true, true_and]
      exact eq_comm

/-- Witness of C18, amended: two newlines give an empty segment, and a blank line
before an indented separator line gives none. -/
theorem splitYAMLDocuments_empty_segment_witness :
    [] ∈ splitYAMLDocuments "\n\n".toList
      ∧ splitYAMLDocuments "\n\n".toList = [[]]
      ∧ splitYAMLDocuments "a: 1\n\n ---\nc: 3\n".toList = ["a: 1".toList, "c: 3".toList] :=
  ⟨(splitYAMLDocuments_empty_segment "\n\n".toList).2.2.1.mpr
      ⟨[], [[], [], []], [], by decide, by decide, by decide⟩,
    ((splitYAMLDocuments_empty_segment "\n\n".toList).2.2.2 (by decide)).1.trans (by decide),
    (splitYAMLDocuments_empty_segment "a: 1\n\n ---\nc: 3\n".toList).2.1.trans (by decide)⟩

end KustomizeFzf

